import Mathlib

/-!
Shallow embedding of the Chorgi composition engine (src/test5.py).

Python's shared pseudo-random source is modelled as an explicit tape of
natural numbers (`Tape`); every primitive draw consumes one tape entry.
Floats are modelled as exact rationals; MIDI pitches as integers.
-/

namespace Chorgi

attribute [local semireducible] Rat.add Rat.mul Rat.sub Rat.inv

abbrev Tape := List Nat

def drawNat (t : Tape) : Nat × Tape := (t.headD 0, t.tail)

/-- Model of `random.random()`: a value in `[0,1)` with resolution 1/1000. -/
def randUnit (t : Tape) : ℚ × Tape :=
  let d := drawNat t
  (((d.1 % 1000 : ℕ) : ℚ) / 1000, d.2)

/-- Model of `random.randint(lo, hi)` (both endpoints included). -/
def randIntIncl (lo hi : Int) (t : Tape) : Int × Tape :=
  let d := drawNat t
  (lo + ((d.1 % (hi - lo + 1).toNat : ℕ) : Int), d.2)

/-- Model of `random.choice(seq)`; `none` corresponds to the exception raised
on an empty sequence. -/
def choiceL {α : Type} (l : List α) (t : Tape) : Option α × Tape :=
  let d := drawNat t
  (l.get? (d.1 % l.length), d.2)

/-- Model of `random.sample(population, k)`: repeatedly draws a position and
removes the drawn element. -/
def sampleL {α : Type} : List α → Nat → Tape → List α × Tape
  | _, 0, t => ([], t)
  | l, k + 1, t =>
    if l.isEmpty then ([], t)
    else
      let d := drawNat t
      let i := d.1 % l.length
      match l.get? i with
      | none => ([], d.2)
      | some x =>
        let r := sampleL (l.eraseIdx i) k d.2
        (x :: r.1, r.2)

/-! Scale/note utilities (`calculate_inversion`, `get_average_pitch`,
`transpose_notes`, `calculate_drop2_voicing` in the source). -/

def sortInts (l : List Int) : List Int := l.insertionSort (· ≤ ·)

def calculate_inversion (root_pos_notes : List Int) (inv_num : Int) : List Int :=
  let notes := sortInts root_pos_notes
  let num_notes : Int := notes.length
  if inv_num < 0 ∨ num_notes ≤ inv_num then notes
  else if inv_num = 0 then notes
  else
    let k := inv_num.toNat
    let notes_to_move := notes.take k
    let remaining_notes := notes.drop k
    let moved_notes := notes_to_move.map (· + 12)
    sortInts (remaining_notes ++ moved_notes)

def get_average_pitch (notes : List Int) : ℚ :=
  if notes.isEmpty then 0
  else ((notes.map (fun n => (n : ℚ))).sum) / (notes.length : ℚ)

def transpose_notes (notes : List Int) (semitones : Int) : List Int :=
  notes.map (· + semitones)

def calculate_drop2_voicing (notes : List Int) : List Int :=
  if notes.length ≠ 4 then sortInts notes
  else
    let ns := sortInts notes
    let note_to_drop := ns.getD 2 0
    let remaining := ns.take 2 ++ ns.drop 3
    sortInts (remaining ++ [note_to_drop - 12])

/-! Key data and scales. -/

def NOTE_NAMES : List String :=
  ["C", "C#", "D", "D#", "E", "F"] ++ ["F#", "G", "G#", "A", "A#", "B"]

def rootNotesMidi (name : String) : Int := 60 + (NOTE_NAMES.indexOf name : Nat)

def get_major_scale_notes (root : Int) : List Int :=
  [0, 2, 4, 5, 7, 9, 11].map (root + ·)

def get_natural_minor_scale_notes (root : Int) : List Int :=
  [0, 2, 3, 5, 7, 8, 10].map (root + ·)

/-! String helpers used by the chord-name logic. -/

/-- Does `pat` occur at the start of `s`? -/
def leadsWith : List Char → List Char → Bool
  | _, [] => true
  | [], _ :: _ => false
  | a :: s, b :: p => a = b && leadsWith s p

/-- Python's `pat in s` substring test. -/
def listHasSub : List Char → List Char → Bool
  | s, pat =>
    if leadsWith s pat then true
    else
      match s with
      | [] => false
      | _ :: rest => listHasSub rest pat

def strHas (s pat : String) : Bool := listHasSub s.data pat.data

/-- Characters before the first occurrence of `d` (the whole list when `d`
is absent). -/
def takeUntilChar : List Char → Char → List Char
  | [], _ => []
  | c :: cs, d => if c = d then [] else c :: takeUntilChar cs d

/-- Python's `s.split('(')[0]`. -/
def stripParen (s : String) : String := ⟨takeUntilChar s.data '('⟩

/-- Python's `s.split('/')[0]`: strip a voicing suffix from a display name. -/
def baseOf (s : String) : String := ⟨takeUntilChar s.data '/'⟩

/-- Python's `s.lower()`. -/
def lowerStr (s : String) : String := ⟨s.data.map Char.toLower⟩

/-- Python's `s.endswith(suffix)`. -/
def strEndsWith (s suf : String) : Bool := leadsWith s.data.reverse suf.data.reverse

/-- Python's `s.replace(pat, rep)` (all non-overlapping occurrences, left to
right; only called with non-empty `pat`). -/
def replaceList (pat rep : List Char) : List Char → List Char
  | [] => []
  | c :: cs =>
    if pat ≠ [] ∧ leadsWith (c :: cs) pat then
      rep ++ replaceList pat rep ((c :: cs).drop pat.length)
    else c :: replaceList pat rep cs
termination_by l => l.length
decreasing_by
  · rename_i h
    simp only [List.length_drop, List.length_cons]
    have : 0 < pat.length := List.length_pos.mpr h.1
    omega
  · simp only [List.length_cons]; omega

def strReplace (s pat rep : String) : String := ⟨replaceList pat.data rep.data s.data⟩

def listMax (l : List Int) : Int := l.foldl max (l.headD 0)

/-! Chord pools. A pool is Python's insertion-ordered dict from chord display
name to `{notes, function}`, modelled as an association list with in-place
overwrite on key collision. -/

structure PoolEntry where
  notes : List Int
  func : String
deriving Repr, DecidableEq

abbrev Pool := List (String × PoolEntry)

def poolInsert (p : Pool) (k : String) (v : PoolEntry) : Pool :=
  if p.any (·.1 = k) then p.map (fun e => if e.1 = k then (k, v) else e)
  else p ++ [(k, v)]

def poolFind (p : Pool) (k : String) : Option PoolEntry :=
  (p.find? (·.1 = k)).map (·.2)

def poolHas (p : Pool) (k : String) : Bool := p.any (·.1 = k)

def noteNameOf (pitch : Int) : String := NOTE_NAMES.getD (pitch % 12).toNat ""

/-- Embedding of `generate_blues_chord_pool`. -/
def generate_blues_chord_pool (key_root_name : String) (root_midi_note : Int)
    (key_type : String) : Pool :=
  if key_type = "major" then
    let dom7 : List Int := [0, 4, 7, 10]
    let iv_note := root_midi_note + 5
    let v_note := root_midi_note + 7
    poolInsert (poolInsert (poolInsert []
      (key_root_name ++ "7") ⟨sortInts (dom7.map (root_midi_note + ·)), "I7"⟩)
      (noteNameOf iv_note ++ "7") ⟨sortInts (dom7.map (iv_note + ·)), "IV7"⟩)
      (noteNameOf v_note ++ "7") ⟨sortInts (dom7.map (v_note + ·)), "V7"⟩
  else
    let m7 : List Int := [0, 3, 7, 10]
    let dom7 : List Int := [0, 4, 7, 10]
    let iv_note := root_midi_note + 5
    let v_note := root_midi_note + 7
    poolInsert (poolInsert (poolInsert []
      (key_root_name ++ "m7") ⟨sortInts (m7.map (root_midi_note + ·)), "i7"⟩)
      (noteNameOf iv_note ++ "m7") ⟨sortInts (m7.map (iv_note + ·)), "iv7"⟩)
      (noteNameOf v_note ++ "7") ⟨sortInts (dom7.map (v_note + ·)), "V7"⟩

/-- Chord definition table of `generate_chorgi_major_chord_pool`
(quality-suffix name and intervals per table key). -/
def chorgiMajorDefs (k : String) : Option (String × List Int) :=
  if k = "I" then some ("maj", [0, 4, 7])
  else if k = "Imaj7" then some ("maj7", [0, 4, 7, 11])
  else if k = "ii" then some ("m", [0, 3, 7])
  else if k = "ii7" then some ("m7", [0, 3, 7, 10])
  else if k = "iii" then some ("m", [0, 3, 7])
  else if k = "iii7" then some ("m7", [0, 3, 7, 10])
  else if k = "IV" then some ("maj", [0, 4, 7])
  else if k = "IVmaj7" then some ("maj7", [0, 4, 7, 11])
  else if k = "V" then some ("maj", [0, 4, 7])
  else if k = "V7" then some ("7", [0, 4, 7, 10])
  else if k = "vi" then some ("m", [0, 3, 7])
  else if k = "vi7" then some ("m7", [0, 3, 7, 10])
  else if k = "vii" then some ("dim", [0, 3, 6])
  else if k = "viiø7" then some ("m7b5", [0, 3, 6, 10])
  else if k = "Imaj9" then some ("maj9", [0, 4, 7, 11, 14])
  else if k = "V9" then some ("9", [0, 4, 7, 10, 14])
  else none

def seventhKeyMajor (roman : String) : String :=
  roman ++ (if roman = "I" ∨ roman = "IV" then "maj7"
            else if roman = "V" then "7"
            else if roman = "vii" then "m7b5" else "m7")

def ninthKeyMajor (roman : String) : String :=
  roman ++ (if roman = "I" ∨ roman = "IV" then "maj9"
            else if roman = "V" then "9"
            else if roman = "vii" then "m9b5" else "m9")

def majorRomans : List String := ["I", "ii", "iii", "IV", "V", "vi", "vii"]

/-- Embedding of `generate_chorgi_major_chord_pool`. -/
def generate_chorgi_major_chord_pool (_key_root_name : String) (root_midi_note : Int)
    (complexity : String) : Pool :=
  let scale := get_major_scale_notes root_midi_note
  let is_extra := complexity = "Extra (Extensions)"
  let pool := (List.range 7).foldl (fun pool di =>
    let roman := majorRomans.getD di ""
    let crn := scale.getD di 0
    let cname := noteNameOf crn
    let pool :=
      match chorgiMajorDefs roman with
      | some d => poolInsert pool (cname ++ d.1) ⟨sortInts (d.2.map (crn + ·)), roman⟩
      | none => pool
    let sk := seventhKeyMajor roman
    let pool :=
      match chorgiMajorDefs sk with
      | some d => poolInsert pool (cname ++ d.1) ⟨sortInts (d.2.map (crn + ·)), sk⟩
      | none => pool
    if is_extra then
      let nk := ninthKeyMajor roman
      match chorgiMajorDefs nk with
      | some d => poolInsert pool (cname ++ d.1) ⟨(sortInts (d.2.map (crn + ·))).take 6, nk⟩
      | none => pool
    else pool) []
  pool.filter (fun e => e.2.notes.length ≤ (if is_extra then 6 else 4))

/-- Chord definition table of `generate_jazz_major_chord_pool`. -/
def jazzMajorDefs (k : String) : Option (String × List Int) :=
  if k = "Imaj7" then some ("maj7", [0, 4, 7, 11])
  else if k = "Imaj9" then some ("maj9", [0, 4, 7, 11, 14])
  else if k = "ii7" then some ("m7", [0, 3, 7, 10])
  else if k = "ii9" then some ("m9", [0, 3, 7, 10, 14])
  else if k = "V7" then some ("7", [0, 4, 7, 10])
  else if k = "V9" then some ("9", [0, 4, 7, 10, 14])
  else if k = "iii7" then some ("m7", [0, 3, 7, 10])
  else if k = "IVmaj7" then some ("maj7", [0, 4, 7, 11])
  else if k = "vi7" then some ("m7", [0, 3, 7, 10])
  else if k = "viiø7" then some ("m7b5", [0, 3, 6, 10])
  else none

/-- Embedding of `generate_jazz_major_chord_pool`. -/
def generate_jazz_major_chord_pool (_key_root_name : String) (root_midi_note : Int)
    (complexity : String) : Pool :=
  let scale := get_major_scale_notes root_midi_note
  let is_extra := complexity = "Extra (Extensions)"
  let pool := (List.range 7).foldl (fun pool di =>
    let roman := majorRomans.getD di ""
    let crn := scale.getD di 0
    let cname := noteNameOf crn
    let sk := seventhKeyMajor roman
    let pool :=
      match jazzMajorDefs sk with
      | some d => poolInsert pool (cname ++ d.1) ⟨sortInts (d.2.map (crn + ·)), sk⟩
      | none => pool
    if is_extra then
      let nk := ninthKeyMajor roman
      match jazzMajorDefs nk with
      | some d => poolInsert pool (cname ++ d.1) ⟨(sortInts (d.2.map (crn + ·))).take 6, nk⟩
      | none => pool
    else pool) []
  pool.filter (fun e => e.2.notes.length ≤ (if is_extra then 6 else 4))

/-! Harmonic function resolver (`_find_chord_by_function`). -/

def hasSeventhTok (m : String) : Bool :=
  strHas m "7" || strHas m "9" || strHas m "11" || strHas m "13"

def funcMatches (pool : Pool) (function_target : String) : List String :=
  let base_target := stripParen function_target
  (pool.filter (fun e => lowerStr (stripParen e.2.func) = lowerStr base_target)).map (·.1)

/-- Embedding of `_find_chord_by_function`. -/
def find_chord_by_function (pool : Pool) (function_target : String)
    (_key_type : String) (prefer_seventh : Bool) (t : Tape) : Option String × Tape :=
  let ms := funcMatches pool function_target
  if ms.isEmpty then (none, t)
  else if prefer_seventh then
    let sevenths := ms.filter hasSeventhTok
    if ¬sevenths.isEmpty then choiceL sevenths t
    else choiceL ms t
  else choiceL ms t

/-! Voicing transform (`_apply_voicing`): returns
`(original notes, final voiced notes, midi notes, root note, display name)`. -/

structure Voiced where
  orig : List Int
  final : List Int
  midi : List Int
  root : Option Int
  disp : String
deriving Repr, DecidableEq

/-- Embedding of `_apply_voicing`. -/
def apply_voicing (root_pos_notes : List Int) (voicing_style base_name : String)
    (chord_octave_shift : Int) (t : Tape) : Voiced × Tape :=
  match root_pos_notes with
  | [] => (⟨[], [], [], none, base_name⟩, t)
  | n0 :: _ =>
    let num_n := root_pos_notes.length
    if voicing_style = "Allow Inversions" then
      let max_inv : Int := (num_n : Int) - 1
      if max_inv > 0 then
        let r1 := randUnit t
        if r1.1 < 3/5 then
          let r2 := randIntIncl 0 max_inv r1.2
          let inv_num := r2.1
          let final := calculate_inversion root_pos_notes inv_num
          let disp := if inv_num > 0 then base_name ++ "/Inv" ++ toString inv_num
                      else base_name
          (⟨root_pos_notes, final, transpose_notes final chord_octave_shift,
            some n0, disp⟩, r2.2)
        else
          let final := calculate_inversion root_pos_notes 0
          (⟨root_pos_notes, final, transpose_notes final chord_octave_shift,
            some n0, base_name⟩, r1.2)
      else
        let final := calculate_inversion root_pos_notes 0
        (⟨root_pos_notes, final, transpose_notes final chord_octave_shift,
          some n0, base_name⟩, t)
    else if voicing_style = "Prefer Drop 2" ∧ num_n = 4 then
      let drop2_notes := calculate_drop2_voicing root_pos_notes
      if ¬drop2_notes.isEmpty then
        (⟨root_pos_notes, drop2_notes, transpose_notes drop2_notes chord_octave_shift,
          some n0, base_name ++ "/D2"⟩, t)
      else
        (⟨root_pos_notes, root_pos_notes,
          transpose_notes root_pos_notes chord_octave_shift, some n0, base_name⟩, t)
    else
      (⟨root_pos_notes, root_pos_notes,
        transpose_notes root_pos_notes chord_octave_shift, some n0, base_name⟩, t)

/-! Smooth chord finder (`_find_next_smooth_chord`). -/

structure Cand where
  name : String
  orig : List Int
  voiced : List Int
  disp : String
  rootBass : Int
  dist : ℚ
  high : Int
deriving Repr, DecidableEq

def darkKeys : List String := ["m", "dim", "ø", "alt", "b9", "sus"]

def isDarkName (cand_name : String) : Bool :=
  (darkKeys.any (fun k => strHas (lowerStr cand_name) k)) &&
  !((["maj", "6"] : List String).any (fun k => strHas (lowerStr cand_name) k))

def isLightName (cand_name key_root_name : String) : Bool :=
  (strHas (lowerStr cand_name) "maj" || strEndsWith cand_name key_root_name) &&
  !(darkKeys.any (fun k => strHas (lowerStr cand_name) k))

/-- The loop body of `_find_next_smooth_chord`'s candidate loop: look the
candidate up, voice it, and compute the bias-adjusted distance.  Skipped
candidates (missing or empty entries) yield `none`. -/
def evalCand (pool : Pool) (prev_avg : ℚ) (chord_bias key_root_name voicing_style : String)
    (shift : Int) (cand_name : String) (t : Tape) : Option Cand × Tape :=
  match poolFind pool cand_name with
  | none => (none, t)
  | some entry =>
    if entry.notes.isEmpty then (none, t)
    else
      let cur_root_bass := entry.notes.headD 0
      let r := apply_voicing entry.notes voicing_style cand_name shift t
      let v := r.1
      if v.final.isEmpty then (none, r.2)
      else
        let cand_avg := get_average_pitch v.final
        let dist0 := |cand_avg - prev_avg|
        let dist :=
          if chord_bias = "Darker" then
            (if isDarkName cand_name then dist0 * (7/10) else dist0)
          else if chord_bias = "Lighter" then
            (if isLightName cand_name key_root_name then dist0 * (7/10) else dist0)
          else dist0
        (some ⟨cand_name, v.orig, v.final, v.disp, cur_root_bass, dist,
               listMax v.final⟩, r.2)

def evalCands (pool : Pool) (prev_avg : ℚ)
    (chord_bias key_root_name voicing_style : String) (shift : Int) :
    List String → Tape → List Cand × Tape
  | [], t => ([], t)
  | c :: cs, t =>
    match evalCand pool prev_avg chord_bias key_root_name voicing_style shift c t with
    | (none, t2) => evalCands pool prev_avg chord_bias key_root_name voicing_style shift cs t2
    | (some cd, t2) =>
      let r := evalCands pool prev_avg chord_bias key_root_name voicing_style shift cs t2
      (cd :: r.1, r.2)

/-- Strictly better than the running winner (an absent winner stands for the
initial infinite distance). -/
def beatsBest (c : Cand) (b : Option Cand) : Bool :=
  match b with
  | none => true
  | some b0 => c.dist < b0.dist

/-- One update of the two running winners (constrained, unconstrained);
a winner is replaced only on strictly smaller bias-adjusted distance. -/
def selStep (prev_high : Int) (st : Option Cand × Option Cand) (c : Cand) :
    Option Cand × Option Cand :=
  let bc := if c.high ≤ prev_high + 3 ∧ beatsBest c st.1 then some c else st.1
  let bu := if beatsBest c st.2 then some c else st.2
  (bc, bu)

def runSelect (prev_high : Int) (cands : List Cand) : Option Cand × Option Cand :=
  cands.foldl (selStep prev_high) (none, none)

abbrev SmoothResult := String × List Int × List Int × List Int × String × Option Int

def smoothErr : SmoothResult := ("ERROR", [], [], [], "ERR", none)

def voicedToResult (v : Voiced) : SmoothResult :=
  (baseOf v.disp, v.orig, v.final, v.midi, v.disp, v.root)

def candToResult (c : Cand) (shift : Int) : SmoothResult :=
  (baseOf c.disp, c.orig, c.voiced, transpose_notes c.voiced shift, c.disp, some c.rootBass)

/-- Embedding of `_find_next_smooth_chord`. -/
def find_next_smooth_chord (chord_pool : Pool) (pool_chord_names : List String)
    (prev_notes_voiced : Option (List Int)) (prev_name : Option String)
    (chord_bias key_root_name voicing_style : String) (chord_octave_shift : Int)
    (t : Tape) : SmoothResult × Tape :=
  match prev_notes_voiced with
  | none =>
    match choiceL pool_chord_names t with
    | (some chosen, t2) =>
      if chosen ≠ "" ∧ poolHas chord_pool chosen then
        match poolFind chord_pool chosen with
        | some entry =>
          if ¬entry.notes.isEmpty then
            let r := apply_voicing entry.notes voicing_style chosen chord_octave_shift t2
            (voicedToResult r.1, r.2)
          else (smoothErr, t2)
        | none => (smoothErr, t2)
      else (smoothErr, t2)
    | (none, t2) => (smoothErr, t2)
  | some prevNotes =>
    let prev_avg := get_average_pitch prevNotes
    let prev_high := listMax prevNotes
    let filtered := pool_chord_names.filter (fun n => ¬(some n = prev_name))
    let poss_cands := if filtered.isEmpty then pool_chord_names else filtered
    if poss_cands.isEmpty then (smoothErr, t)
    else
      let num_samp := min 5 poss_cands.length
      let s := sampleL poss_cands num_samp t
      let ec := evalCands chord_pool prev_avg chord_bias key_root_name voicing_style
                  chord_octave_shift s.1 s.2
      let sel := runSelect prev_high ec.1
      match sel.1 with
      | some c => (candToResult c chord_octave_shift, ec.2)
      | none =>
        match sel.2 with
        | some c => (candToResult c chord_octave_shift, ec.2)
        | none =>
          let fb0 : Option (Option String × Tape) :=
            match prev_name with
            | some pn => if pn ≠ "" ∧ poolHas chord_pool pn then some (some pn, ec.2) else none
            | none => none
          let fb : Option String × Tape :=
            match fb0 with
            | some r => r
            | none => if ¬pool_chord_names.isEmpty then choiceL pool_chord_names ec.2
                      else (none, ec.2)
          match fb.1 with
          | some fc =>
            if fc ≠ "" ∧ poolHas chord_pool fc then
              match poolFind chord_pool fc with
              | some entry =>
                if ¬entry.notes.isEmpty then
                  let r := apply_voicing entry.notes voicing_style fc chord_octave_shift fb.2
                  (voicedToResult r.1, r.2)
                else (smoothErr, fb.2)
              | none => (smoothErr, fb.2)
            else (smoothErr, fb.2)
          | none => (smoothErr, fb.2)

/-! Progression generator (`_generate_progression`). -/

structure Slot where
  disp : String
  orig : List Int
  midi : List Int
  root : Option Int
  dur : ℚ
deriving Repr, DecidableEq

def pop_sequence : List String := ["I", "vi", "IV", "V"]
def pachelbel_sequence : List String := ["I", "V", "vi", "iii", "IV", "I", "IV", "V"]
def ii_v_i_basic : List String := ["ii", "V", "I"]

/-- Python truthiness of an optional chord-name string. -/
def truthyS : Option String → Bool
  | none => false
  | some s => s ≠ ""

/-- Selection state inside one slot iteration: chord name, root-position
notes, final voiced notes, midi notes, bass root and display name
(the Python locals of the loop body, with `None` lists flattened to `[]`). -/
structure Picked where
  cname : Option String
  orig : List Int
  final : List Int
  midi : List Int
  root : Option Int
  disp : Option String

/-- Template lookup step of the slot loop (template styles only consume tape
when they run the resolver). -/
def templateName (prog_style : String) (chord_pool : Pool) (key_type : String)
    (slotIdx : Nat) (t : Tape) : Option String × Tape :=
  if prog_style = "Pop (I-vi-IV-V)" then
    find_chord_by_function chord_pool (pop_sequence.getD (slotIdx % 4) "") key_type true t
  else if prog_style = "Pachelbel-ish" then
    find_chord_by_function chord_pool (pachelbel_sequence.getD (slotIdx % 8) "") key_type true t
  else if prog_style = "ii-V-I Focused" then
    find_chord_by_function chord_pool (ii_v_i_basic.getD (slotIdx % 3) "") key_type true t
  else (none, t)

/-- The per-slot chord selection (template resolution falling through to
smooth-random selection, lines 2901-2936). -/
def pickInitial (prog_style voicing_style chord_bias : String) (chord_pool : Pool)
    (pool_chord_names : List String) (key_type key_root_name : String)
    (slotIdx : Nat) (prev_final : Option (List Int)) (prev_base : Option String)
    (t : Tape) : Picked × Tape :=
  let tn := templateName prog_style chord_pool key_type slotIdx t
  if ¬truthyS tn.1 ∨ prog_style = "Smooth Random" then
    let r := find_next_smooth_chord chord_pool pool_chord_names prev_final prev_base
               chord_bias key_root_name voicing_style (-12) tn.2
    let s := r.1
    (⟨some s.1, s.2.1, s.2.2.1, s.2.2.2.1, s.2.2.2.2.2, some s.2.2.2.2.1⟩, r.2)
  else
    match tn.1 with
    | some n =>
      (match poolFind chord_pool n with
       | some entry =>
         if ¬entry.notes.isEmpty then
           let r := apply_voicing entry.notes voicing_style n (-12) tn.2
           (⟨some n, r.1.orig, r.1.final, r.1.midi, r.1.root, some r.1.disp⟩, r.2)
         else (⟨none, [], [], [], none, none⟩, tn.2)
       | none => (⟨none, [], [], [], none, none⟩, tn.2))
    | none => (⟨none, [], [], [], none, none⟩, tn.2)

/-- The fallback chord-name choice (line 2940): repeat the previous chord
when it is still a valid pool key, otherwise draw a random pool name. -/
def fallbackChoice (chord_pool : Pool) (pool_chord_names : List String)
    (prev_base : Option String) (t : Tape) : Option String × Tape :=
  match prev_base with
  | some pb =>
    if pb ≠ "" ∧ poolHas chord_pool pb then (some pb, t)
    else if ¬pool_chord_names.isEmpty then choiceL pool_chord_names t
    else (none, t)
  | none =>
    if ¬pool_chord_names.isEmpty then choiceL pool_chord_names t
    else (none, t)

/-- Voicing of the fallback chord (lines 2941-2952); `none` is the Python
`break`. -/
def voiceFallback (voicing_style : String) (chord_pool : Pool) (fc : String)
    (t : Tape) : Option Picked × Tape :=
  if fc ≠ "" ∧ poolHas chord_pool fc then
    match poolFind chord_pool fc with
    | some entry =>
      if ¬entry.notes.isEmpty then
        let r := apply_voicing entry.notes voicing_style fc (-12) t
        (some ⟨some fc, r.1.orig, r.1.final, r.1.midi, r.1.root, some r.1.disp⟩, r.2)
      else (none, t)
    | none => (none, t)
  else (none, t)

/-- The failed-selection fallback (lines 2938-2955); `none` is the Python
`break`. -/
def pickFallback (voicing_style : String) (chord_pool : Pool)
    (pool_chord_names : List String) (prev_base : Option String)
    (p : Picked) (t : Tape) : Option Picked × Tape :=
  if ¬truthyS p.cname ∨ p.orig.isEmpty ∨ p.final.isEmpty then
    let fb := fallbackChoice chord_pool pool_chord_names prev_base t
    match fb.1 with
    | some fc => voiceFallback voicing_style chord_pool fc fb.2
    | none => (none, fb.2)
  else (some p, t)

/-- Appending the slot and updating the previous-chord state (lines
2957-2970); a failed component check stores the `("ERROR", [], [], None)`
sentinel. -/
def storePick (bpc : ℚ) (q : Picked) : Slot × Option (List Int) × Option String :=
  match q.cname with
  | some cn =>
    if cn ≠ "" ∧ ¬q.orig.isEmpty ∧ ¬q.midi.isEmpty ∧ ¬q.final.isEmpty ∧ q.root.isSome then
      (⟨(q.disp.getD cn), q.orig, q.midi, q.root, bpc⟩,
       some q.final, some (baseOf cn))
    else
      (⟨"ERROR", [], [], none, bpc⟩, none, none)
  | none =>
    (⟨"ERROR", [], [], none, bpc⟩, none, none)

/-- One iteration of `_generate_progression`'s slot loop.  The result is
`none` when the Python loop executes `break` (impossible fallback), otherwise
the appended slot together with the updated previous-chord state. -/
def genSlotStep (prog_style voicing_style chord_bias : String) (chord_pool : Pool)
    (pool_chord_names : List String) (key_type key_root_name : String) (bpc : ℚ)
    (slotIdx : Nat) (prev_final : Option (List Int)) (prev_base : Option String)
    (t : Tape) : Option (Slot × Option (List Int) × Option String) × Tape :=
  let sel := pickInitial prog_style voicing_style chord_bias chord_pool
               pool_chord_names key_type key_root_name slotIdx prev_final prev_base t
  let afterFb := pickFallback voicing_style chord_pool pool_chord_names prev_base
                   sel.1 sel.2
  match afterFb.1 with
  | none => (none, afterFb.2)
  | some q => (some (storePick bpc q), afterFb.2)

/-- The slot loop of `_generate_progression` (`remaining` counts the slots
still to fill; a `break` stops the loop early). -/
def genSlots (prog_style voicing_style chord_bias : String) (chord_pool : Pool)
    (pool_chord_names : List String) (key_type key_root_name : String) (bpc : ℚ) :
    Nat → Nat → Option (List Int) → Option String → Tape → List Slot × Tape
  | 0, _, _, _, t => ([], t)
  | r + 1, idx, pf, pb, t =>
    match genSlotStep prog_style voicing_style chord_bias chord_pool pool_chord_names
            key_type key_root_name bpc idx pf pb t with
    | (none, t2) => ([], t2)
    | (some (slot, pf2, pb2), t2) =>
      let rest := genSlots prog_style voicing_style chord_bias chord_pool
                    pool_chord_names key_type key_root_name bpc r (idx + 1) pf2 pb2 t2
      (slot :: rest.1, rest.2)

/-- Minor/major normalization of the resolved tonic name
(lines 2979-2981 of the source). -/
def normalizeTonic (is_minor : Bool) (n : String) : String :=
  if is_minor ∧ ¬strEndsWith n "m" ∧ ¬strEndsWith n "m7" ∧
      ¬strHas n "dim" ∧ ¬strHas n "ø" then
    n ++ "m"
  else if ¬is_minor ∧ (strEndsWith n "m" ∨ strEndsWith n "m7") then
    strReplace (strReplace n "m7" "") "m" ""
  else n

/-- Cadence post-processing of `_generate_progression` (lines 2975-3008). -/
def applyCadence (cadence_str voicing_style : String) (chord_pool : Pool)
    (key_type : String) (is_minor : Bool) (bpc : ℚ) (prog : List Slot) (t : Tape) :
    List Slot × Tape :=
  if cadence_str ≠ "Any" ∧ 2 ≤ prog.length then
    let r1 := find_chord_by_function chord_pool "I" key_type false t
    let tonic : Option String := r1.1.map (normalizeTonic is_minor)
    let r2 := find_chord_by_function chord_pool "V" key_type true r1.2
    let dom := r2.1
    let r3 := find_chord_by_function chord_pool "IV" key_type true r2.2
    let subdom := r3.1
    let tonic_data := tonic.bind (poolFind chord_pool)
    let dom_data := dom.bind (poolFind chord_pool)
    let subdom_data := subdom.bind (poolFind chord_pool)
    if cadence_str = "Authentic (V-I)" then
      match dom_data, tonic_data with
      | some dd, some td =>
        if ¬td.notes.isEmpty ∧ ¬dd.notes.isEmpty then
          let last := prog.length - 1
          let rv := apply_voicing td.notes voicing_style (tonic.getD "") (-12) r3.2
          let tv := rv.1
          let prog2 := prog.set last ⟨tv.disp, tv.orig, tv.midi, tv.root, bpc⟩
          if 0 < last then
            let rv2 := apply_voicing dd.notes voicing_style (dom.getD "") (-12) rv.2
            let dv := rv2.1
            (prog2.set (last - 1) ⟨dv.disp, dv.orig, dv.midi, dv.root, bpc⟩, rv2.2)
          else (prog2, rv.2)
        else (prog, r3.2)
      | _, _ => (prog, r3.2)
    else if cadence_str = "Plagal (IV-I)" then
      match subdom_data, tonic_data with
      | some sd, some td =>
        if ¬td.notes.isEmpty ∧ ¬sd.notes.isEmpty then
          let last := prog.length - 1
          let rv := apply_voicing td.notes voicing_style (tonic.getD "") (-12) r3.2
          let tv := rv.1
          let prog2 := prog.set last ⟨tv.disp, tv.orig, tv.midi, tv.root, bpc⟩
          if 0 < last then
            let rv2 := apply_voicing sd.notes voicing_style (subdom.getD "") (-12) rv.2
            let sv := rv2.1
            (prog2.set (last - 1) ⟨sv.disp, sv.orig, sv.midi, sv.root, bpc⟩, rv2.2)
          else (prog2, rv.2)
        else (prog, r3.2)
      | _, _ => (prog, r3.2)
    else (prog, r3.2)
  else (prog, t)

/-- Embedding of `_generate_progression` (never called for the blues style). -/
def generate_progression (num_bars : Nat)
    (prog_style chord_rate_str voicing_style cadence_str chord_bias : String)
    (chord_pool : Pool) (pool_chord_names : List String)
    (key_type key_root_name : String) (is_minor : Bool) (t : Tape) :
    List Slot × Tape :=
  let chords_per_bar : Nat := if chord_rate_str = "1 / Bar" then 1 else 2
  let total := num_bars * chords_per_bar
  let bpc : ℚ := 4 / (chords_per_bar : ℚ)
  let r := genSlots prog_style voicing_style chord_bias chord_pool pool_chord_names
             key_type key_root_name bpc total 0 none none t
  applyCadence cadence_str voicing_style chord_pool key_type is_minor bpc r.1 r.2

/-! The 12-bar-blues special case. -/

def blues_pattern_names (tonic subdom dom : String) : List String :=
  [tonic, tonic, tonic, tonic, subdom, subdom, tonic, tonic, dom, subdom, tonic, dom]

/-- Embedding of `_generate_12_bar_blues_progression`; `none` is the
`RuntimeError` raised when the expected names are missing from the pool. -/
def generate_12_bar_blues_progression (chord_pool : Pool)
    (key_type key_root_name : String) : Option (List Slot) :=
  let is_minor := key_type = "minor"
  let root := rootNotesMidi key_root_name
  let tonic := key_root_name ++ (if is_minor then "m7" else "7")
  let subdom := noteNameOf (root + 5) ++ (if is_minor then "m7" else "7")
  let dom := noteNameOf (root + 7) ++ "7"
  if ¬(poolHas chord_pool tonic ∧ poolHas chord_pool subdom ∧ poolHas chord_pool dom) then
    none
  else
    some ((blues_pattern_names tonic subdom dom).map (fun name =>
      match poolFind chord_pool name with
      | some e =>
        if e.notes.isEmpty then ⟨"ERR_EMPTY_" ++ name, [], [], none, 4⟩
        else ⟨name, e.notes, transpose_notes e.notes (-12), some (e.notes.headD 0), 4⟩
      | none => ⟨"ERR_EMPTY_" ++ name, [], [], none, 4⟩))

/-- The blues branch of `_execute_generation_logic` (lines 2773-2781): the
requested bar count is discarded and forced to 12, the dedicated blues pool is
built, and the blues progression is generated.  Returns the forced bar count
and the progression. -/
def execute_blues (_requested_bars : Nat) (key_root_name key_type : String) :
    Nat × Option (List Slot) :=
  let num_bars := 12
  let chord_pool := generate_blues_chord_pool key_root_name (rootNotesMidi key_root_name)
                      key_type
  (num_bars, generate_12_bar_blues_progression chord_pool key_type key_root_name)

/-! RnB bass generator (`generate_bass_rnb`). -/

def rnb_rhythms : List (List (ℚ × ℚ)) :=
  [[(0, 3/4)], [(0, 1/2), (1/2, 1/2)], [(0, 3/4), (3/4, 1/4)], [(0, 3/2)]]

/-- Result of the Python loop `while p < lo: p += 12` (closed form; the loop
equation `raiseAbove_eq` below certifies it). -/
def raiseAbove (p lo : Int) : Int :=
  if p < lo then p + 12 * ((lo - p + 11) / 12) else p

/-- Result of the Python loop `while p > hi: p -= 12` (closed form; the loop
equation `lowerBelow_eq` below certifies it). -/
def lowerBelow (p hi : Int) : Int :=
  if p > hi then p - 12 * ((p - hi + 11) / 12) else p

/-- `raiseAbove` satisfies exactly the recurrence of the Python loop. -/
lemma raiseAbove_eq (p lo : Int) :
    raiseAbove p lo = if p < lo then raiseAbove (p + 12) lo else p := by
  unfold raiseAbove
  split_ifs <;> omega

/-- `lowerBelow` satisfies exactly the recurrence of the Python loop. -/
lemma lowerBelow_eq (p hi : Int) :
    lowerBelow p hi = if p > hi then lowerBelow (p - 12) hi else p := by
  unfold lowerBelow
  split_ifs <;> omega

lemma raiseAbove_emod12 (p lo : Int) : raiseAbove p lo % 12 = p % 12 := by
  unfold raiseAbove
  split_ifs <;> omega

lemma lowerBelow_emod12 (p hi : Int) : lowerBelow p hi % 12 = p % 12 := by
  unfold lowerBelow
  split_ifs <;> omega

/-- The per-rhythm-item emission loop of `generate_bass_rnb`. -/
def rnbSlotNotes (root_pitch fifth_pitch : Int) (base dur : ℚ) :
    List (ℚ × ℚ) → Tape → List (Int × ℚ × ℚ) × Tape
  | [], t => ([], t)
  | (off, db) :: rest, t =>
    let r := randUnit t
    let pitch := if r.1 < 7/10 then root_pitch else fifth_pitch
    let actual := min db (dur - off)
    let rec0 := rnbSlotNotes root_pitch fifth_pitch base dur rest r.2
    if base + off < base + dur ∧ actual > 1/20 then
      ((pitch, base + off, actual * (9/10)) :: rec0.1, rec0.2)
    else rec0

/-- Embedding of `generate_bass_rnb` (the scale argument is unused, as in the
source). -/
def generate_bass_rnb (progression_data : List Slot) (_scale_notes : List Int)
    (t : Tape) : List (Int × ℚ × ℚ) × Tape :=
  go progression_data 0 t
where
  go : List Slot → ℚ → Tape → List (Int × ℚ × ℚ) × Tape
  | [], _, t => ([], t)
  | s :: rest, cur, t =>
    match s.root with
    | none => go rest (cur + (if s.dur > 0 then s.dur else 1)) t
    | some rn =>
      if s.dur ≤ 0 then go rest (cur + 1) t
      else
        let root_pitch := lowerBelow (raiseAbove (rn + (-24)) 28) 65
        let fifth0 := root_pitch + 7
        let fifth_pitch := if fifth0 > 65 then fifth0 - 12 else fifth0
        let rc := choiceL rnb_rhythms t
        let rhythm := rc.1.getD []
        let emitted := rnbSlotNotes root_pitch fifth_pitch cur s.dur rhythm rc.2
        let r2 := go rest (cur + s.dur) emitted.2
        (emitted.1 ++ r2.1, r2.2)

/-! Chord-focus melody generator (`generate_melody_chord_focus`). -/

def get_melody_rhythm_placements (melody_speed : String) : List (List (ℚ × ℚ)) :=
  if melody_speed = "Slow" then
    [[(0, 1)], [(0, 1/2)], [(0, 2)], [(0, 3/4), (3/4, 1/4)]]
  else if melody_speed = "Fast" then
    [[(0, 1/4)], [(0, 1/2)], [(0, 1/4), (1/4, 1/4)],
     [(0, 1/8), (1/8, 1/8)], [(0, 333/1000), (333/1000, 333/1000)],
     [(0, 1/4), (1/2, 1/4)],
     [(0, 166/1000), (166/1000, 166/1000), (333/1000, 166/1000)]]
  else
    [[(0, 1/2)], [(0, 1)], [(0, 1/2), (1/2, 1/2)],
     [(0, 1/4), (1/4, 1/4)], [(0, 3/4), (3/4, 1/4)], [(1/2, 1/2)]]

/-- First element minimizing `|· - target|` (Python `min(..., key=...)`). -/
def argminAbs (target : Int) : List Int → Option Int
  | [] => none
  | x :: xs => some (xs.foldl (fun b y => if |y - target| < |b - target| then y else b) x)

def stepRange (max_step : Nat) : List Int :=
  ((List.range (2 * max_step + 1)).map (fun j => (j : Int) - (max_step : Int))).filter
    (· ≠ 0)

/-- Embedding of `get_stepwise_notes`. -/
def get_stepwise_notes (current_note : Int) (extended_scale : List Int)
    (max_step : Nat) : List Int :=
  if extended_scale.isEmpty then []
  else
    match argminAbs current_note extended_scale with
    | none => []
    | some closest =>
      let ci : Int := (extended_scale.indexOf closest : Nat)
      (stepRange max_step).filterMap (fun step =>
        let idx := ci + step
        if 0 ≤ idx ∧ idx < (extended_scale.length : Int) then
          extended_scale.get? idx.toNat
        else none)

def circDist (a pc : Int) : Int := min |a - pc| (min |a - pc - 12| |a - pc + 12|)

/-- First pitch class minimizing the circular distance to `a`
(Python `min(scale_note_pcs, key=...)`). -/
def snapPc (a : Int) : List Int → Option Int
  | [] => none
  | x :: xs => some (xs.foldl (fun b y => if circDist a y < circDist a b then y else b) x)

def dedupSort (l : List Int) : List Int := sortInts l.dedup

/-- The pitch-selection block of `generate_melody_chord_focus` (lines
546-571 of the source): assemble weighted candidates, pick one, clamp into
the octave window, and snap off-scale classes (or drop the note). -/
def choose_pitch (diat ext scale_notes pcs : List Int) (shift : Int) (ctw sw : ℚ)
    (minP maxP : Int) (last : Option Int) (t : Tape) : Option Int × Tape :=
  let r1 := randUnit t
  let p1 : List Int := if r1.1 < ctw ∧ ¬diat.isEmpty then diat ++ diat ++ diat else []
  let s2 : List Int × Tape :=
    match last with
    | some ln =>
      if ¬ext.isEmpty then
        let r2 := randUnit r1.2
        (if r2.1 < sw then get_stepwise_notes ln ext 2 else [], r2.2)
      else ([], r1.2)
    | none => ([], r1.2)
  let possible0 := p1 ++ s2.1
  let pf : List Int × Tape :=
    if possible0.isEmpty then
      if ¬diat.isEmpty then (diat, s2.2)
      else if ¬scale_notes.isEmpty then
        let r3 := choiceL scale_notes s2.2
        ((match r3.1 with | some n => [n + shift] | none => []), r3.2)
      else ([60 + shift], s2.2)
    else (possible0, s2.2)
  if pf.1.isEmpty then (none, pf.2)
  else
    let r4 := choiceL pf.1 pf.2
    match r4.1 with
    | none => (none, r4.2)
    | some p0 =>
      let pA := lowerBelow (raiseAbove p0 minP) maxP
      if pA % 12 ∈ pcs then (some pA, r4.2)
      else
        match snapPc (pA % 12) pcs with
        | none => (none, r4.2)
        | some cl =>
          let pB := (Int.fdiv pA 12) * 12 + cl
          let pC := lowerBelow (raiseAbove pB minP) maxP
          (if pC % 12 ∈ pcs then some pC else none, r4.2)

/-- Per-slot configuration of the chord-focus melody generator after the
instrument adjustments. -/
structure MelCfg where
  pcs : List Int
  ext : List Int
  scale : List Int
  shift : Int
  ctw : ℚ
  sw : ℚ
  stac : ℚ
  artic : String
  minP : Int
  maxP : Int

/-- The inner loop over one rhythm placement. -/
def melPlacement (cfg : MelCfg) (diat : List Int) (d chordStart beatq : ℚ) :
    List (ℚ × ℚ) → Option Int → Tape → List (Int × ℚ × ℚ) × Option Int × Tape
  | [], last, t => ([], last, t)
  | (off, frac) :: rest, last, t =>
    let posInChord := beatq + off
    if posInChord ≥ d - 1/100 then melPlacement cfg diat d chordStart beatq rest last t
    else
      let startAbs := chordStart + posInChord
      let remain := d - posInChord
      let d0 := if cfg.artic = "Staccato" then cfg.stac else frac
      let d1 := min d0 remain
      if d1 ≤ 1/100 then melPlacement cfg diat d chordStart beatq rest last t
      else
        let cp := choose_pitch diat cfg.ext cfg.scale cfg.pcs cfg.shift cfg.ctw cfg.sw
                    cfg.minP cfg.maxP last t
        match cp.1 with
        | some p =>
          let r := melPlacement cfg diat d chordStart beatq rest (some p) cp.2
          ((p, startAbs, d1) :: r.1, r.2)
        | none => melPlacement cfg diat d chordStart beatq rest last cp.2

/-- The per-beat loop inside one chord slot. -/
def melBeats (cfg : MelCfg) (diat : List Int) (d chordStart : ℚ)
    (placements : List (List (ℚ × ℚ))) :
    Nat → Nat → ℚ → Option Int → Tape → List (Int × ℚ × ℚ) × Option Int × Tape
  | 0, _, _, last, t => ([], last, t)
  | r + 1, beat, cur, last, t =>
    if cur ≥ d - 1/100 then ([], last, t)
    else
      let rp : List (ℚ × ℚ) × Tape :=
        if placements.isEmpty then ([(0, 1)], t)
        else
          let c := choiceL placements t
          (c.1.getD [(0, 1)], c.2)
      let inner := melPlacement cfg diat d chordStart (beat : ℚ) rp.1 last rp.2
      let rest := melBeats cfg diat d chordStart placements r (beat + 1)
                    ((beat : ℚ) + 1) inner.2.1 inner.2.2
      (inner.1 ++ rest.1, rest.2)

/-- The outer slot loop. -/
def melSlots (cfg : MelCfg) (placements : List (List (ℚ × ℚ))) :
    List Slot → ℚ → Option Int → Tape → List (Int × ℚ × ℚ) × Tape
  | [], _, _, t => ([], t)
  | s :: rest, time, last, t =>
    if s.orig.isEmpty ∨ s.dur ≤ 0 then
      melSlots cfg placements rest (time + (if s.dur > 0 then s.dur else 1)) last t
    else
      let num_beats := (Int.floor (s.dur + 1/2)).toNat
      let mel_notes := transpose_notes s.orig cfg.shift
      let diat := mel_notes.filter (fun n => n % 12 ∈ cfg.pcs)
      let b := melBeats cfg diat s.dur time placements num_beats 0 0 last t
      let r := melSlots cfg placements rest (time + s.dur) b.2.1 b.2.2
      (b.1 ++ r.1, r.2)

/-- Embedding of `generate_melody_chord_focus`. -/
def generate_melody_chord_focus (progression_data : List Slot)
    (scale_notes : List Int) (melody_style melody_speed melody_octave
    instrument_type : String) (t : Tape) : List (Int × ℚ × ℚ) × Tape :=
  if scale_notes.isEmpty then ([], t)
  else
    let shift : Int := if melody_octave = "Mid" then 12 else 24
    let placements := get_melody_rhythm_placements melody_speed
    let pcs := (scale_notes.map (· % 12)).dedup
    let ext := dedupSort (scale_notes.flatMap
                 (fun n => ([-24, -12, 0, 12, 24, 36] : List Int).map (n + ·)))
    let minP : Int := if melody_octave = "Mid" then 60 else 72
    let maxP : Int := if melody_octave = "Mid" then 84 else 96
    let ctw : ℚ := if instrument_type = "Synth Lead" then 3/5
                   else if instrument_type = "Keys" ∨ instrument_type = "Piano" then 4/5
                   else 7/10
    let sw : ℚ := if instrument_type = "Synth Lead" then 2/5 else 3/10
    let stac : ℚ := if instrument_type = "Pluck" then 1/10 else 3/20
    let artic := if instrument_type = "Pluck" ∧ melody_style = "Legato" then "Staccato"
                 else melody_style
    melSlots ⟨pcs, ext, scale_notes, shift, ctw, sw, stac, artic, minP, maxP⟩
      placements progression_data 0 none t

/-! Pitch-class multisets and preservation lemmas for the voicing
transforms. -/

def pcm (l : List Int) : Multiset Int := ((l.map (· % 12) : List Int) : Multiset Int)

lemma pcm_perm {a b : List Int} (h : List.Perm a b) : pcm a = pcm b :=
  Multiset.coe_eq_coe.mpr (h.map _)

lemma pcm_append (a b : List Int) : pcm (a ++ b) = pcm a + pcm b := by
  simp [pcm]

lemma pcm_sortInts (l : List Int) : pcm (sortInts l) = pcm l :=
  pcm_perm (List.perm_insertionSort _ l)

lemma length_sortInts (l : List Int) : (sortInts l).length = l.length :=
  (List.perm_insertionSort _ l).length_eq

lemma pcm_map_add12 (l : List Int) : pcm (l.map (· + 12)) = pcm l := by
  have h : ((fun x : Int => x % 12) ∘ (fun x : Int => x + 12)) =
      (fun x : Int => x % 12) := by
    funext x; simp only [Function.comp_apply]; omega
  simp [pcm, List.map_map, h]

lemma pcm_transpose_neg12 (l : List Int) : pcm (transpose_notes l (-12)) = pcm l := by
  have h : ((fun x : Int => x % 12) ∘ (fun x : Int => x + (-12))) =
      (fun x : Int => x % 12) := by
    funext x; simp only [Function.comp_apply]; omega
  simp [pcm, transpose_notes, List.map_map, h]

lemma length_transpose (l : List Int) (s : Int) :
    (transpose_notes l s).length = l.length := by
  simp [transpose_notes]

lemma pcm_calculate_inversion (l : List Int) (k : Int) :
    pcm (calculate_inversion l k) = pcm l := by
  unfold calculate_inversion
  dsimp only
  split
  · exact pcm_sortInts l
  · split
    · exact pcm_sortInts l
    · calc pcm (sortInts ((sortInts l).drop k.toNat ++
            ((sortInts l).take k.toNat).map (· + 12)))
          = pcm ((sortInts l).drop k.toNat ++
              ((sortInts l).take k.toNat).map (· + 12)) := pcm_sortInts _
        _ = pcm ((sortInts l).drop k.toNat) +
              pcm (((sortInts l).take k.toNat).map (· + 12)) := pcm_append _ _
        _ = pcm ((sortInts l).drop k.toNat) + pcm ((sortInts l).take k.toNat) := by
              rw [pcm_map_add12]
        _ = pcm ((sortInts l).take k.toNat) + pcm ((sortInts l).drop k.toNat) :=
              add_comm _ _
        _ = pcm ((sortInts l).take k.toNat ++ (sortInts l).drop k.toNat) :=
              (pcm_append _ _).symm
        _ = pcm (sortInts l) := by rw [List.take_append_drop]
        _ = pcm l := pcm_sortInts l

lemma length_calculate_inversion (l : List Int) (k : Int) :
    (calculate_inversion l k).length = l.length := by
  unfold calculate_inversion
  dsimp only
  split
  · exact length_sortInts l
  · split
    · exact length_sortInts l
    · rw [length_sortInts, List.length_append, List.length_map, List.length_drop,
        List.length_take, length_sortInts]
      omega

lemma pcm_calculate_drop2 (l : List Int) : pcm (calculate_drop2_voicing l) = pcm l := by
  unfold calculate_drop2_voicing
  dsimp only
  split
  · exact pcm_sortInts l
  · rename_i h4
    have h4' : (sortInts l).length = 4 := by rw [length_sortInts]; omega
    obtain ⟨a, b, c, d, habcd⟩ : ∃ a b c d, sortInts l = [a, b, c, d] := by
      match hs : sortInts l, h4' with
      | [a, b, c, d], _ => exact ⟨a, b, c, d, rfl⟩
    rw [habcd]
    have step : pcm (sortInts ([a, b, c, d].take 2 ++ [a, b, c, d].drop 3 ++
        [[a, b, c, d].getD 2 0 - 12])) = pcm [a, b, d, c - 12] := by
      rw [pcm_sortInts]; rfl
    rw [step, ← pcm_sortInts l, habcd]
    show ((([a, b, d, c - 12].map (· % 12)) : List Int) : Multiset Int) =
      (([a, b, c, d].map (· % 12) : List Int) : Multiset Int)
    have hc : (c - 12) % 12 = c % 12 := by omega
    simp only [List.map_cons, List.map_nil, hc]
    exact Multiset.coe_eq_coe.mpr
      (List.Perm.cons _ (List.Perm.cons _ (List.Perm.swap _ _ _)))

lemma length_calculate_drop2 (l : List Int) :
    (calculate_drop2_voicing l).length = l.length := by
  unfold calculate_drop2_voicing
  dsimp only
  split
  · exact length_sortInts l
  · rename_i h4
    have h4' : (sortInts l).length = 4 := by rw [length_sortInts]; omega
    rw [length_sortInts, List.length_append, List.length_append, List.length_take,
      List.length_drop, length_sortInts]
    simp only [List.length_cons, List.length_nil]
    omega

/-- Core facts about `_apply_voicing`: it returns the root-position input as
`orig`, the midi notes are the voiced notes shifted, the voiced notes keep
the input's pitch-class multiset and length, and the root is the first input
note. -/
lemma apply_voicing_spec (notes : List Int) (sty nm : String) (sh : Int) (t : Tape) :
    (apply_voicing notes sty nm sh t).1.orig = notes ∧
    (apply_voicing notes sty nm sh t).1.midi =
      transpose_notes (apply_voicing notes sty nm sh t).1.final sh ∧
    pcm (apply_voicing notes sty nm sh t).1.final = pcm notes ∧
    (apply_voicing notes sty nm sh t).1.final.length = notes.length ∧
    (notes ≠ [] → (apply_voicing notes sty nm sh t).1.root = some (notes.headD 0)) := by
  match notes with
  | [] => exact ⟨rfl, rfl, rfl, rfl, fun h => absurd rfl h⟩
  | n0 :: rest =>
    show (apply_voicing (n0 :: rest) sty nm sh t).1.orig = n0 :: rest ∧ _
    unfold apply_voicing
    dsimp only
    split
    · split
      · split
        · exact ⟨rfl, rfl, pcm_calculate_inversion _ _, length_calculate_inversion _ _,
            fun _ => rfl⟩
        · exact ⟨rfl, rfl, pcm_calculate_inversion _ _, length_calculate_inversion _ _,
            fun _ => rfl⟩
      · exact ⟨rfl, rfl, pcm_calculate_inversion _ _, length_calculate_inversion _ _,
          fun _ => rfl⟩
    · split
      · split
        · exact ⟨rfl, rfl, pcm_calculate_drop2 _, length_calculate_drop2 _, fun _ => rfl⟩
        · exact ⟨rfl, rfl, rfl, rfl, fun _ => rfl⟩
      · exact ⟨rfl, rfl, rfl, rfl, fun _ => rfl⟩

/-! Claim C6: behaviour of `calculate_inversion` on out-of-range indices. -/

/-- C6 counterexample: the claim says an out-of-range `inversionIndex` behaves
as if clamped to `[0, len-1]`, so index 3 on a 3-note chord should act like
index 2; in fact the code returns the sorted input unchanged, which differs
from the index-2 inversion. -/
theorem c6_clamp_counterexample :
    calculate_inversion [60, 64, 67] 3 = [60, 64, 67] ∧
    calculate_inversion [60, 64, 67] 2 = [67, 72, 76] ∧
    calculate_inversion [60, 64, 67] 3 ≠ calculate_inversion [60, 64, 67] 2 := by
  decide

/-- C6 (amended): `calculate_inversion` treats any out-of-range index
(negative or `≥ len`) as 0, returning the sorted input unchanged rather than
clamping to `len-1`; index 0 is the identity on the sorted input; an in-range
index `k` returns the sorted permutation of the input with its lowest `k`
notes raised one octave. -/
theorem c6_inversion_amended (notes : List Int) (k : Int) :
    calculate_inversion notes 0 = sortInts notes ∧
    ((k < 0 ∨ (notes.length : Int) ≤ k) → calculate_inversion notes k = sortInts notes) ∧
    (0 ≤ k → k < (notes.length : Int) →
      (calculate_inversion notes k).Perm
        ((sortInts notes).drop k.toNat ++ ((sortInts notes).take k.toNat).map (· + 12)) ∧
      List.Sorted (· ≤ ·) (calculate_inversion notes k)) := by
  have hlen : ((sortInts notes).length : Int) = (notes.length : Int) := by
    rw [length_sortInts]
  refine ⟨?_, ?_, ?_⟩
  · unfold calculate_inversion
    dsimp only
    split
    · rfl
    · simp
  · intro h
    unfold calculate_inversion
    dsimp only
    rw [if_pos]
    omega
  · intro h0 hk
    constructor
    · unfold calculate_inversion
      dsimp only
      split
      · omega
      · split
        · rename_i hz
          subst hz
          simp
        · exact List.perm_insertionSort _ _
    · unfold calculate_inversion
      dsimp only
      split
      · exact List.sorted_insertionSort _ _
      · split
        · exact List.sorted_insertionSort _ _
        · exact List.sorted_insertionSort _ _

/-- C6 witness: the amended theorem applied at a concrete in-range input. -/
theorem c6_inversion_amended_witness :
    (calculate_inversion [60, 64, 67] 1).Perm
      ((sortInts [60, 64, 67]).drop 1 ++ ((sortInts [60, 64, 67]).take 1).map (· + 12)) ∧
    List.Sorted (· ≤ ·) (calculate_inversion [60, 64, 67] 1) :=
  (c6_inversion_amended [60, 64, 67] 1).2.2 (by decide) (by decide)

/-! Claim C9: "Root Position" voicing is the identity. -/

/-- C9: for a non-empty note list, the "Root Position" voicing style returns
the input unchanged as both `originalNotes` and `finalVoicedNotes`, the
display name is the bare base name, the root is the first note, and
`midiNotes` is exactly the input transposed by the playback octave shift. -/
theorem c9_root_position_identity (n0 : Int) (rest : List Int) (notes : List Int)
    (base : String) (shift : Int) (t : Tape) (h : notes = n0 :: rest) :
    apply_voicing notes "Root Position" base shift t =
      (⟨notes, notes, transpose_notes notes shift, some n0, base⟩, t) := by
  subst h; rfl

/-- C9 witness: the identity law evaluated at a concrete chord. -/
theorem c9_root_position_identity_witness :
    apply_voicing [60, 64, 67] "Root Position" "Cmaj" (-12) [] =
      (⟨[60, 64, 67], [60, 64, 67], transpose_notes [60, 64, 67] (-12),
        some 60, "Cmaj"⟩, []) :=
  c9_root_position_identity 60 [64, 67] [60, 64, 67] "Cmaj" (-12) [] rfl

/-! Claim C7: the "Allow Inversions" style. -/

/-- C7 counterexample: the claim says the 60%-probability branch draws the
inversion index uniformly from `[1, numNotes-1]`, so index 0 should be
impossible there; but the code calls `random.randint(0, numNotes-1)`, and on a
tape whose coin draw takes the 60% branch the drawn index can be 0, leaving
the chord uninverted with no "/InvN" suffix. -/
theorem c7_inversion_zero_counterexample :
    (randUnit [0, 0]).1 < 3/5 ∧
    (apply_voicing [60, 64, 67] "Allow Inversions" "C" (-12) [0, 0]).1.disp = "C" ∧
    (apply_voicing [60, 64, 67] "Allow Inversions" "C" (-12) [0, 0]).1.final =
      [60, 64, 67] := by
  refine ⟨by norm_num [randUnit, drawNat], by decide, by decide⟩

/-- C7 (amended): under "Allow Inversions" with more than one note, when the
coin draw takes the 60% branch the inversion index is drawn uniformly from
`[0, numNotes-1]` (every such index is reachable, 0 included), and the
display name carries the "/InvN" suffix exactly when the drawn index N is
non-zero. -/
theorem c7_allow_inversions_amended (n0 : Int) (rest : List Int) (base : String)
    (shift : Int) (i : Nat) (h1 : rest ≠ []) (h2 : i < (n0 :: rest).length) :
    ∃ t : Tape, (randUnit t).1 < 3/5 ∧
      apply_voicing (n0 :: rest) "Allow Inversions" base shift t =
        (⟨n0 :: rest, calculate_inversion (n0 :: rest) (i : Int),
          transpose_notes (calculate_inversion (n0 :: rest) (i : Int)) shift,
          some n0,
          if i = 0 then base else base ++ "/Inv" ++ toString (i : Int)⟩, []) := by
  refine ⟨[0, i], ?_, ?_⟩
  · norm_num [randUnit, drawNat]
  · have htrue : ((0 % 1000 : ℕ) : ℚ) / 1000 < 3/5 := by norm_num
    have hlen : 0 < rest.length := List.length_pos.mpr h1
    have hmax : ((n0 :: rest).length : Int) - 1 > 0 := by
      simp only [List.length_cons]; omega
    have htn : ((((n0 :: rest).length : Int) - 1 - 0 + 1)).toNat = (n0 :: rest).length := by
      simp only [List.length_cons]; omega
    unfold apply_voicing
    dsimp only
    rw [if_pos rfl, if_pos hmax]
    unfold randUnit randIntIncl drawNat
    simp only [List.headD_cons, List.tail_cons]
    rw [if_pos htrue, htn, Nat.mod_eq_of_lt h2]
    simp only [zero_add]
    by_cases hz : i = 0
    · subst hz
      norm_num
    · have hpos : (0 : Int) < (i : Int) := by omega
      rw [if_pos hpos, if_neg hz]

/-- C7 witness: the amended theorem at a concrete chord and index. -/
theorem c7_allow_inversions_amended_witness :
    ∃ t : Tape, (randUnit t).1 < 3/5 ∧
      apply_voicing [60, 64] "Allow Inversions" "X" (-12) t =
        (⟨[60, 64], calculate_inversion [60, 64] (1 : Int),
          transpose_notes (calculate_inversion [60, 64] (1 : Int)) (-12),
          some 60,
          if (1 : Nat) = 0 then "X" else "X" ++ "/Inv" ++ toString ((1 : Nat) : Int)⟩,
         []) :=
  c7_allow_inversions_amended 60 [64] "X" (-12) 1 (by decide) (by decide)


/-! Claim C1: the 12-bar-blues special case. -/

/-- C1: for every key root and key type, the blues path forces the bar count
to 12 regardless of the requested value and emits exactly 12 slots of 4.0
beats each, following the fixed I-I-I-I-IV-IV-I-I-V-IV-I-V pattern over the
three blues-pool chord names in root position (midi notes are just the pool
notes shifted one octave down, with no inversion or drop-2 and no display
suffix); in particular for A minor the chord-name sequence is
[Am7 ×4, Dm7 ×2, Am7 ×2, E7, Dm7, Am7, E7]. -/
theorem c1_blues_12_bars (requested : Nat) :
    (∀ (k : Fin 12) (minor : Bool),
      let key := NOTE_NAMES.getD k ""
      let kt := if minor then "minor" else "major"
      let pool := generate_blues_chord_pool key (rootNotesMidi key) kt
      let tonic := key ++ (if minor then "m7" else "7")
      let subdom := noteNameOf (rootNotesMidi key + 5) ++ (if minor then "m7" else "7")
      let dom := noteNameOf (rootNotesMidi key + 7) ++ "7"
      (execute_blues requested key kt).1 = 12 ∧
      ((execute_blues requested key kt).2.map List.length) = some 12 ∧
      ((execute_blues requested key kt).2.map (fun l => l.map (·.disp))) =
        some (blues_pattern_names tonic subdom dom) ∧
      ((execute_blues requested key kt).2.map (fun l => l.map (·.dur))) =
        some (List.replicate 12 (4 : ℚ)) ∧
      ((execute_blues requested key kt).2.map (fun l => l.map (·.orig))) =
        some ((blues_pattern_names tonic subdom dom).map
          (fun n => (((poolFind pool n).map (·.notes)).getD []))) ∧
      ((execute_blues requested key kt).2.map (fun l => l.map (·.midi))) =
        ((execute_blues requested key kt).2.map (fun l =>
          l.map (fun s => transpose_notes s.orig (-12))))) ∧
    ((execute_blues requested "A" "minor").2.map (fun l => l.map (·.disp))) =
      some ["Am7", "Am7", "Am7", "Am7", "Dm7", "Dm7", "Am7", "Am7", "E7",
            "Dm7", "Am7", "E7"] := by
  rw [show execute_blues requested = execute_blues 0 from rfl]
  decide


lemma choiceL_mem {α : Type} {l : List α} {t : Tape} {x : α}
    (h : (choiceL l t).1 = some x) : x ∈ l := by
  unfold choiceL drawNat at h
  exact List.get?_mem h

lemma choiceL_isSome {α : Type} {l : List α} (hne : l ≠ []) (t : Tape) :
    ((choiceL l t).1).isSome := by
  unfold choiceL drawNat
  dsimp only
  rw [Option.isSome_iff_ne_none]
  intro hn
  rw [List.get?_eq_none] at hn
  have hl : 0 < l.length := List.length_pos.mpr hne
  have := Nat.mod_lt (t.headD 0) hl
  omega

lemma mem_funcMatches {pool : Pool} {target n : String}
    (h : n ∈ funcMatches pool target) :
    ∃ e ∈ pool, e.1 = n ∧ lowerStr (stripParen e.2.func) = lowerStr (stripParen target) := by
  unfold funcMatches at h
  obtain ⟨e, he, hfst⟩ := List.mem_map.mp h
  obtain ⟨hmem, hpred⟩ := List.mem_filter.mp he
  exact ⟨e, hmem, hfst, of_decide_eq_true hpred⟩

/-! Claim C8: the harmonic function resolver. -/

/-- C8: `_find_chord_by_function` returns null exactly when no pool entry's
parenthesis-stripped function label matches the stripped query
case-insensitively; a returned name is always a matching pool key; and with
`preferSeventh`, whenever some matching name carries a 7/9/11/13 token the
returned name is one of those. -/
theorem c8_find_chord_by_function_spec (pool : Pool) (target kt : String)
    (ps : Bool) (t : Tape) :
    ((find_chord_by_function pool target kt ps t).1 = none ↔
      funcMatches pool target = []) ∧
    (∀ n, (find_chord_by_function pool target kt ps t).1 = some n →
      n ∈ funcMatches pool target ∧
      ∃ e ∈ pool, e.1 = n ∧
        lowerStr (stripParen e.2.func) = lowerStr (stripParen target)) ∧
    (ps = true → (funcMatches pool target).filter hasSeventhTok ≠ [] →
      ∀ n, (find_chord_by_function pool target kt ps t).1 = some n →
        hasSeventhTok n = true) := by
  unfold find_chord_by_function
  dsimp only
  split
  · rename_i hempty
    rw [List.isEmpty_iff] at hempty
    refine ⟨by simp [hempty], ?_, ?_⟩
    · intro n hn; exact absurd hn (by simp)
    · intro _ _ n hn; exact absurd hn (by simp)
  · rename_i hne
    rw [List.isEmpty_iff] at hne
    split
    · split
      · rename_i hps hsev
        rw [List.isEmpty_iff] at hsev
        have hsome := choiceL_isSome hsev t
        refine ⟨?_, ?_, ?_⟩
        · constructor
          · intro hnone; rw [hnone] at hsome; exact absurd hsome (by simp)
          · intro h; exact absurd h hne
        · intro n hn
          have hmemsev := choiceL_mem hn
          have hmemfil := hmemsev
          have := List.mem_filter.mp hmemfil
          exact ⟨this.1, mem_funcMatches this.1⟩
        · intro _ _ n hn
          have := List.mem_filter.mp (choiceL_mem hn)
          exact this.2
      · rename_i hps hsev
        rw [List.isEmpty_iff, not_not] at hsev
        have hsome := choiceL_isSome hne t
        refine ⟨?_, ?_, ?_⟩
        · constructor
          · intro hnone; rw [hnone] at hsome; exact absurd hsome (by simp)
          · intro h; exact absurd h hne
        · intro n hn
          have hmem := choiceL_mem hn
          exact ⟨hmem, mem_funcMatches hmem⟩
        · intro _ hfil _ _
          exact absurd hsev hfil
    · rename_i hps
      have hsome := choiceL_isSome hne t
      refine ⟨?_, ?_, ?_⟩
      · constructor
        · intro hnone; rw [hnone] at hsome; exact absurd hsome (by simp)
        · intro h; exact absurd h hne
      · intro n hn
        have hmem := choiceL_mem hn
        exact ⟨hmem, mem_funcMatches hmem⟩
      · intro hpst _ _ _
        exact absurd hpst (by simpa using hps)

/-- C8 witness: resolving "V" against the Chorgi C-major pool returns the
matching pool key "Gmaj". -/
theorem c8_find_chord_by_function_spec_witness :
    ("Gmaj" ∈ funcMatches
        (generate_chorgi_major_chord_pool "C" 60 "Standard (Triads/7ths)") "V") ∧
    ∃ e ∈ generate_chorgi_major_chord_pool "C" 60 "Standard (Triads/7ths)",
      e.1 = "Gmaj" ∧ lowerStr (stripParen e.2.func) = lowerStr (stripParen "V") :=
  (c8_find_chord_by_function_spec
    (generate_chorgi_major_chord_pool "C" 60 "Standard (Triads/7ths)")
    "V" "major" true []).2.1 "Gmaj" (by decide)


/-! Claim C5: cadence post-processing. -/

/-- C5 counterexample: with the Jazzy C-major pool, whose function labels are
seventh-chord labels like "Imaj7"/"V7", the resolver queries for "I" and "V"
find no match, so the requested Authentic cadence post-processing overwrites
nothing: a 2-slot progression ending on the dominant G7 is returned unchanged
even though the claim promises the ending harmony is guaranteed. -/
theorem c5_cadence_counterexample :
    applyCadence "Authentic (V-I)" "Root Position"
        (generate_jazz_major_chord_pool "C" 60 "Standard (Triads/7ths)")
        "major" false 4
        [⟨"Fmaj7", [65, 69, 72, 76], [53, 57, 60, 64], some 65, 4⟩,
         ⟨"G7", [67, 71, 74, 77], [55, 59, 62, 65], some 67, 4⟩] [] =
      ([⟨"Fmaj7", [65, 69, 72, 76], [53, 57, 60, 64], some 65, 4⟩,
        ⟨"G7", [67, 71, 74, 77], [55, 59, 62, 65], some 67, 4⟩], []) ∧
    (find_chord_by_function
        (generate_jazz_major_chord_pool "C" 60 "Standard (Triads/7ths)")
        "I" "major" false []).1 = none ∧
    (find_chord_by_function
        (generate_jazz_major_chord_pool "C" 60 "Standard (Triads/7ths)")
        "V" "major" true []).1 = none := by
  refine ⟨?_, by decide, by decide⟩
  decide


/-- Shape of the cadence step: it returns the progression unchanged, or (when
every resolution succeeded, which requires at least 2 slots) overwrites
exactly the last and second-to-last slots with slots of the standard
duration. -/
lemma applyCadence_shape (cadence voicing : String) (pool : Pool) (kt : String)
    (im : Bool) (bpc : ℚ) (prog : List Slot) (t : Tape) :
    (applyCadence cadence voicing pool kt im bpc prog t).1 = prog ∨
    (2 ≤ prog.length ∧ ∃ s1 s2,
      (applyCadence cadence voicing pool kt im bpc prog t).1 =
        (prog.set (prog.length - 1) s1).set (prog.length - 2) s2 ∧
      s1.dur = bpc ∧ s2.dur = bpc) := by
  unfold applyCadence
  dsimp only
  split
  · rename_i hcond
    split
    · -- Authentic
      split
      · rename_i dd td
        split
        · rename_i hnotes
          rw [if_pos (show 0 < prog.length - 1 by omega)]
          exact Or.inr ⟨hcond.2, _, _, rfl, rfl, rfl⟩
        · exact Or.inl rfl
      · exact Or.inl rfl
    · split
      · -- Plagal
        split
        · rename_i sd td
          split
          · rename_i hnotes
            rw [if_pos (show 0 < prog.length - 1 by omega)]
            exact Or.inr ⟨hcond.2, _, _, rfl, rfl, rfl⟩
          · exact Or.inl rfl
        · exact Or.inl rfl
      · exact Or.inl rfl
  · exact Or.inl rfl


/-- C5 (amended): the cadence post-processing, characterized completely.
For any cadence setting the slot count is preserved and every slot before
the last two is left unchanged, and the result is either the unchanged
progression or the progression with (at most) its last two slots replaced by
slots of the standard duration.  When the progression has at least 2 slots
and every Function Resolver lookup succeeds — the tonic query "I"
(normalized by `normalizeTonic`) and the dominant query "V" (resp.
subdominant "IV") resolve to pool entries with non-empty notes — the
"Authentic (V-I)" (resp. "Plagal (IV-I)") cadence overwrites the last slot
with the freshly-voiced resolved tonic and the second-to-last slot with the
freshly-voiced resolved dominant (resp. subdominant).  When any resolution
fails (a lookup returns null, the resolved name is not a pool key, or its
notes are empty) the progression is returned completely unchanged — so the
ending harmony is NOT guaranteed, e.g. for the Jazzy pool whose function
labels are seventh-chord labels (see the counterexample). -/
theorem c5_cadence_amended (cadence voicing : String) (pool : Pool) (kt : String)
    (im : Bool) (bpc : ℚ) (prog : List Slot) (t : Tape) :
    (applyCadence cadence voicing pool kt im bpc prog t).1.length = prog.length ∧
    (∀ i, i + 2 < prog.length →
      (applyCadence cadence voicing pool kt im bpc prog t).1[i]? = prog[i]?) ∧
    ((applyCadence cadence voicing pool kt im bpc prog t).1 = prog ∨
      ∃ s1 s2,
        (applyCadence cadence voicing pool kt im bpc prog t).1 =
          (prog.set (prog.length - 1) s1).set (prog.length - 2) s2 ∧
        s1.dur = bpc ∧ s2.dur = bpc) ∧
    (let r1 := find_chord_by_function pool "I" kt false t
     let tonic := r1.1.map (normalizeTonic im)
     let r2 := find_chord_by_function pool "V" kt true r1.2
     let r3 := find_chord_by_function pool "IV" kt true r2.2
     (2 ≤ prog.length →
       ∀ td dd, tonic.bind (poolFind pool) = some td →
         r2.1.bind (poolFind pool) = some dd →
         td.notes ≠ [] → dd.notes ≠ [] →
         applyCadence "Authentic (V-I)" voicing pool kt im bpc prog t =
           (let rv := apply_voicing td.notes voicing (tonic.getD "") (-12) r3.2
            let rv2 := apply_voicing dd.notes voicing (r2.1.getD "") (-12) rv.2
            ((prog.set (prog.length - 1)
                ⟨rv.1.disp, rv.1.orig, rv.1.midi, rv.1.root, bpc⟩).set
              (prog.length - 1 - 1)
                ⟨rv2.1.disp, rv2.1.orig, rv2.1.midi, rv2.1.root, bpc⟩,
             rv2.2))) ∧
     (¬(∃ td dd, tonic.bind (poolFind pool) = some td ∧
          r2.1.bind (poolFind pool) = some dd ∧
          td.notes ≠ [] ∧ dd.notes ≠ []) →
       (applyCadence "Authentic (V-I)" voicing pool kt im bpc prog t).1 = prog) ∧
     (2 ≤ prog.length →
       ∀ td sd, tonic.bind (poolFind pool) = some td →
         r3.1.bind (poolFind pool) = some sd →
         td.notes ≠ [] → sd.notes ≠ [] →
         applyCadence "Plagal (IV-I)" voicing pool kt im bpc prog t =
           (let rv := apply_voicing td.notes voicing (tonic.getD "") (-12) r3.2
            let rv2 := apply_voicing sd.notes voicing (r3.1.getD "") (-12) rv.2
            ((prog.set (prog.length - 1)
                ⟨rv.1.disp, rv.1.orig, rv.1.midi, rv.1.root, bpc⟩).set
              (prog.length - 1 - 1)
                ⟨rv2.1.disp, rv2.1.orig, rv2.1.midi, rv2.1.root, bpc⟩,
             rv2.2))) ∧
     (¬(∃ td sd, tonic.bind (poolFind pool) = some td ∧
          r3.1.bind (poolFind pool) = some sd ∧
          td.notes ≠ [] ∧ sd.notes ≠ []) →
       (applyCadence "Plagal (IV-I)" voicing pool kt im bpc prog t).1 = prog)) := by
  obtain ⟨ha, hb, hc⟩ :
      (applyCadence cadence voicing pool kt im bpc prog t).1.length = prog.length ∧
      (∀ i, i + 2 < prog.length →
        (applyCadence cadence voicing pool kt im bpc prog t).1[i]? = prog[i]?) ∧
      ((applyCadence cadence voicing pool kt im bpc prog t).1 = prog ∨
        ∃ s1 s2,
          (applyCadence cadence voicing pool kt im bpc prog t).1 =
            (prog.set (prog.length - 1) s1).set (prog.length - 2) s2 ∧
          s1.dur = bpc ∧ s2.dur = bpc) := by
    rcases applyCadence_shape cadence voicing pool kt im bpc prog t with h |
      ⟨hlen, s1, s2, h, h1, h2⟩
    · rw [h]
      exact ⟨rfl, fun i _ => rfl, Or.inl rfl⟩
    · rw [h]
      refine ⟨by simp, ?_, Or.inr ⟨s1, s2, rfl, h1, h2⟩⟩
      intro i hi
      rw [List.getElem?_set_ne (by omega), List.getElem?_set_ne (by omega)]
  refine ⟨ha, hb, hc, ?_⟩
  dsimp only
  refine ⟨?_, ?_, ?_, ?_⟩
  · intro h2 td dd htd hdd htn hdn
    unfold applyCadence
    dsimp only
    rw [if_pos (show ("Authentic (V-I)" : String) ≠ "Any" ∧ 2 ≤ prog.length from
      ⟨by decide, h2⟩)]
    rw [if_pos (rfl : ("Authentic (V-I)" : String) = "Authentic (V-I)")]
    rw [hdd, htd]
    dsimp only
    rw [if_pos (show ¬td.notes.isEmpty = true ∧ ¬dd.notes.isEmpty = true from
      ⟨fun h => htn (List.isEmpty_iff.mp h), fun h => hdn (List.isEmpty_iff.mp h)⟩)]
    rw [if_pos (show 0 < prog.length - 1 by omega)]
  · intro hfail
    unfold applyCadence
    dsimp only
    split
    · split
      · split
        · rename_i dd td heq1 heq2
          split
          · rename_i hnn
            exact absurd ⟨td, dd, heq2, heq1,
              fun h => hnn.1 (by rw [h]; rfl),
              fun h => hnn.2 (by rw [h]; rfl)⟩ hfail
          · rfl
        · rfl
      · rename_i hne
        exact absurd rfl hne
    · rfl
  · intro h2 td sd htd hsd htn hsn
    unfold applyCadence
    dsimp only
    rw [if_pos (show ("Plagal (IV-I)" : String) ≠ "Any" ∧ 2 ≤ prog.length from
      ⟨by decide, h2⟩)]
    rw [if_neg (show ¬("Plagal (IV-I)" : String) = "Authentic (V-I)" by decide)]
    rw [if_pos (rfl : ("Plagal (IV-I)" : String) = "Plagal (IV-I)")]
    rw [hsd, htd]
    dsimp only
    rw [if_pos (show ¬td.notes.isEmpty = true ∧ ¬sd.notes.isEmpty = true from
      ⟨fun h => htn (List.isEmpty_iff.mp h), fun h => hsn (List.isEmpty_iff.mp h)⟩)]
    rw [if_pos (show 0 < prog.length - 1 by omega)]
  · intro hfail
    unfold applyCadence
    dsimp only
    split
    · split
      · rename_i heq
        exact absurd heq (by decide)
      · split
        · split
          · rename_i sd td heq1 heq2
            split
            · rename_i hnn
              exact absurd ⟨td, sd, heq2, heq1,
                fun h => hnn.1 (by rw [h]; rfl),
                fun h => hnn.2 (by rw [h]; rfl)⟩ hfail
            · rfl
          · rfl
        · rename_i hne
          exact absurd rfl hne
    · rfl

/-- C5 witness: the success clause applied to a 3-slot progression over the
Chorgi C-major pool with an Authentic cadence: the resolver finds Cmaj ("I")
and Gmaj ("V"), and the last two slots are overwritten with their voiced
forms while the first slot is untouched. -/
theorem c5_cadence_amended_witness :
    applyCadence "Authentic (V-I)" "Root Position"
        (generate_chorgi_major_chord_pool "C" 60 "Standard (Triads/7ths)")
        "major" false 4
        [⟨"Am", [69, 72, 76], [57, 60, 64], some 69, 4⟩,
         ⟨"Dm", [62, 65, 69], [50, 53, 57], some 62, 4⟩,
         ⟨"Em", [64, 67, 71], [52, 55, 59], some 64, 4⟩] [0, 0, 0] =
      ([⟨"Am", [69, 72, 76], [57, 60, 64], some 69, 4⟩,
        ⟨"Gmaj", [67, 71, 74], [55, 59, 62], some 67, 4⟩,
        ⟨"Cmaj", [60, 64, 67], [48, 52, 55], some 60, 4⟩], []) :=
  (c5_cadence_amended "Authentic (V-I)" "Root Position"
      (generate_chorgi_major_chord_pool "C" 60 "Standard (Triads/7ths)")
      "major" false 4
      [⟨"Am", [69, 72, 76], [57, 60, 64], some 69, 4⟩,
       ⟨"Dm", [62, 65, 69], [50, 53, 57], some 62, 4⟩,
       ⟨"Em", [64, 67, 71], [52, 55, 59], some 64, 4⟩] [0, 0, 0]).2.2.2.1
    (by decide) ⟨[60, 64, 67], "I"⟩ ⟨[67, 71, 74], "V"⟩
    (by decide) (by decide) (by decide) (by decide)


/-! Claim C3: snap-to-scale. -/

/-- C3 counterexample: the RnB bass generator applies no scale check.  Over a
Bdim slot (a chord of the Chorgi C-major pool, root 71) it can emit the
chord's fifth, pitch 54 (= 71 - 24 + 7), whose pitch class 6 (F#) is not in
the C-major pitch-class set — an off-scale bass note is emitted, not dropped
or snapped. -/
theorem c3_rnb_offscale_counterexample :
    poolFind (generate_chorgi_major_chord_pool "C" 60 "Standard (Triads/7ths)")
        "Bdim" = some ⟨[71, 74, 77], "vii"⟩ ∧
    generate_bass_rnb [⟨"Bdim", [71, 74, 77], [59, 62, 65], some 71, 4⟩]
        (get_major_scale_notes 60) [0, 700] =
      ([(54, 0, 27/40)], []) ∧
    ¬((54 : Int) % 12 ∈ (get_major_scale_notes 60).map (· % 12)) := by
  refine ⟨by decide, ?_, by decide⟩
  decide

/-! Claim C2: slot counts and durations. -/

/-- C2 counterexample: the blues path ignores the chords-per-bar rate
entirely (it is not even passed to `_generate_12_bar_blues_progression`), so
with progression style "Blues (12 Bar)" and a requested rate of "2 / Bar" the
generated progression has 12 slots of 4.0 beats — not
`numBars * chordsPerBar = 24` slots of `4.0 / 2 = 2.0` beats as the claim
demands for every progression style. -/
theorem c2_blues_rate_counterexample :
    ((execute_blues 12 "C" "major").2.map List.length) = some 12 ∧
    ¬(((execute_blues 12 "C" "major").2.map List.length) = some (12 * 2)) ∧
    ((execute_blues 12 "C" "major").2.map (fun l => l.map (·.dur))) =
      some (List.replicate 12 (4 : ℚ)) ∧
    ¬((4 : ℚ) = 4 / 2) := by
  refine ⟨by decide, by decide, by decide, by norm_num⟩


/-! Invariants threaded through the progression generator. -/

/-- The C10 invariant on a picked chord: midi notes and root-position notes
agree in length and pitch-class multiset. -/
def PickOk (p : Picked) : Prop :=
  p.midi.length = p.orig.length ∧ pcm p.midi = pcm p.orig

/-- The per-slot invariant: standard duration, and midi/original notes agree
in length and pitch-class multiset. -/
def SlotOk (bpc : ℚ) (s : Slot) : Prop :=
  s.dur = bpc ∧ s.midi.length = s.orig.length ∧ pcm s.midi = pcm s.orig

/-- A pool is valid when it is non-empty and every entry has a non-empty name
and non-empty notes. -/
def ValidPool (pool : Pool) : Prop :=
  pool ≠ [] ∧ (∀ e ∈ pool, e.2.notes ≠ []) ∧ (∀ e ∈ pool, e.1 ≠ "")

lemma apply_voicing_midi_orig (notes : List Int) (sty nm : String) (t : Tape) :
    (apply_voicing notes sty nm (-12) t).1.midi.length =
      (apply_voicing notes sty nm (-12) t).1.orig.length ∧
    pcm (apply_voicing notes sty nm (-12) t).1.midi =
      pcm (apply_voicing notes sty nm (-12) t).1.orig := by
  obtain ⟨ho, hm, hp, hl, -⟩ := apply_voicing_spec notes sty nm (-12) t
  constructor
  · rw [hm, length_transpose, hl, ho]
  · rw [hm, pcm_transpose_neg12, hp, ho]

lemma apply_voicing_ne (notes : List Int) (h : notes ≠ []) (sty nm : String)
    (sh : Int) (t : Tape) :
    (apply_voicing notes sty nm sh t).1.orig ≠ [] ∧
    (apply_voicing notes sty nm sh t).1.final ≠ [] ∧
    (apply_voicing notes sty nm sh t).1.midi ≠ [] ∧
    (apply_voicing notes sty nm sh t).1.root.isSome := by
  obtain ⟨ho, hm, hp, hl, hr⟩ := apply_voicing_spec notes sty nm sh t
  have hfin : (apply_voicing notes sty nm sh t).1.final ≠ [] := by
    intro hc
    rw [hc] at hl
    exact h (List.eq_nil_of_length_eq_zero hl.symm)
  refine ⟨by rw [ho]; exact h, hfin, ?_, by rw [hr h]; rfl⟩
  intro hc
  rw [hm] at hc
  exact hfin (by simpa [transpose_notes] using hc)

lemma poolFind_some_of_has {pool : Pool} {n : String} (h : poolHas pool n = true) :
    ∃ e, poolFind pool n = some e ∧ (n, e) ∈ pool := by
  unfold poolHas at h
  obtain ⟨x, hx, hpx⟩ := List.any_eq_true.mp h
  have hsome : (pool.find? (fun e => e.1 = n)).isSome := by
    rw [List.find?_isSome]
    exact ⟨x, hx, hpx⟩
  obtain ⟨e, he⟩ := Option.isSome_iff_exists.mp hsome
  have hpe : e.1 = n := by simpa using List.find?_some he
  have hme : e ∈ pool := List.mem_of_find?_eq_some he
  refine ⟨e.2, ?_, ?_⟩
  · unfold poolFind
    rw [he]
    rfl
  · have : e = (n, e.2) := by
      cases e
      simp_all
    rw [← this]
    exact hme

lemma poolHas_of_mem_names {pool : Pool} {n : String}
    (h : n ∈ pool.map Prod.fst) : poolHas pool n = true := by
  obtain ⟨e, he, hfst⟩ := List.mem_map.mp h
  unfold poolHas
  rw [List.any_eq_true]
  exact ⟨e, he, by simp [hfst]⟩

/-- Every candidate produced by the smooth-selection candidate loop carries a
non-empty voicing of a non-empty pool entry, with the pitch-class multiset
and length of its root position. -/
lemma evalCand_spec (pool : Pool) (pa : ℚ) (bias kr vs : String) (sh : Int)
    (a : String) (t : Tape) (cd : Cand)
    (h : (evalCand pool pa bias kr vs sh a t).1 = some cd) :
    cd.orig ≠ [] ∧ cd.voiced ≠ [] ∧ pcm cd.voiced = pcm cd.orig ∧
    cd.voiced.length = cd.orig.length := by
  unfold evalCand at h
  dsimp only at h
  split at h
  · exact absurd h (by simp)
  · rename_i entry heq
    split at h
    · exact absurd h (by simp)
    · rename_i hne
      split at h
      · exact absurd h (by simp)
      · rename_i hvf
        have hcd := Option.some.inj h
        obtain ⟨ho, hm, hp, hl, -⟩ := apply_voicing_spec entry.notes vs a sh t
        subst hcd
        have hone : entry.notes ≠ [] := by
          simpa [List.isEmpty_iff] using hne
        refine ⟨by rw [ho]; exact hone, ?_, by rw [hp, ho], by rw [hl, ho]⟩
        simpa [List.isEmpty_iff] using hvf

lemma evalCands_spec (pool : Pool) (pa : ℚ) (bias kr vs : String) (sh : Int) :
    ∀ (ns : List String) (t : Tape) (c : Cand),
      c ∈ (evalCands pool pa bias kr vs sh ns t).1 →
      c.orig ≠ [] ∧ c.voiced ≠ [] ∧ pcm c.voiced = pcm c.orig ∧
      c.voiced.length = c.orig.length := by
  intro ns
  induction ns with
  | nil =>
    intro t c hc
    exact absurd hc (by simp [evalCands])
  | cons a as ih =>
    intro t c hc
    unfold evalCands at hc
    rcases hev : evalCand pool pa bias kr vs sh a t with ⟨o, t2⟩
    rw [hev] at hc
    match o, hc with
    | none, hc => exact ih t2 c hc
    | some cd, hc =>
      rcases List.mem_cons.mp hc with rfl | hmem
      · exact evalCand_spec pool pa bias kr vs sh a t c (by rw [hev])
      · exact ih t2 c hmem

lemma foldl_selStep_fst_mem (ph : Int) :
    ∀ (L : List Cand) (st : Option Cand × Option Cand) (c : Cand),
      (L.foldl (selStep ph) st).1 = some c → st.1 = some c ∨ c ∈ L := by
  intro L
  induction L with
  | nil => intro st c h; exact Or.inl h
  | cons a L ih =>
    intro st c h
    rcases ih (selStep ph st a) c h with h2 | h2
    · unfold selStep at h2
      dsimp only at h2
      split at h2
      · exact Or.inr (by rw [← Option.some.inj h2]; exact List.mem_cons_self a L)
      · exact Or.inl h2
    · exact Or.inr (List.mem_cons_of_mem a h2)

lemma foldl_selStep_snd_mem (ph : Int) :
    ∀ (L : List Cand) (st : Option Cand × Option Cand) (c : Cand),
      (L.foldl (selStep ph) st).2 = some c → st.2 = some c ∨ c ∈ L := by
  intro L
  induction L with
  | nil => intro st c h; exact Or.inl h
  | cons a L ih =>
    intro st c h
    rcases ih (selStep ph st a) c h with h2 | h2
    · unfold selStep at h2
      dsimp only at h2
      split at h2
      · exact Or.inr (by rw [← Option.some.inj h2]; exact List.mem_cons_self a L)
      · exact Or.inl h2
    · exact Or.inr (List.mem_cons_of_mem a h2)

lemma runSelect_fst_mem {ph : Int} {L : List Cand} {c : Cand}
    (h : (runSelect ph L).1 = some c) : c ∈ L := by
  rcases foldl_selStep_fst_mem ph L (none, none) c h with h2 | h2
  · exact absurd h2 (by simp)
  · exact h2

lemma runSelect_snd_mem {ph : Int} {L : List Cand} {c : Cand}
    (h : (runSelect ph L).2 = some c) : c ∈ L := by
  rcases foldl_selStep_snd_mem ph L (none, none) c h with h2 | h2
  · exact absurd h2 (by simp)
  · exact h2


/-- The C10-relevant wellformedness of a successful smooth-selection result
`(name, orig, final, midi, disp, root)`. -/
def SmoothOk (r : SmoothResult) : Prop :=
  r.2.1 ≠ [] ∧ r.2.2.1 ≠ [] ∧ r.2.2.2.1 ≠ [] ∧ r.2.2.2.2.2.isSome ∧
  r.2.2.2.1.length = r.2.1.length ∧ pcm r.2.2.2.1 = pcm r.2.1

lemma candToResult_ok {c : Cand} (h1 : c.orig ≠ []) (h2 : c.voiced ≠ [])
    (h3 : pcm c.voiced = pcm c.orig) (h4 : c.voiced.length = c.orig.length) :
    SmoothOk (candToResult c (-12)) := by
  unfold candToResult SmoothOk
  dsimp only
  refine ⟨h1, h2, ?_, rfl, ?_, ?_⟩
  · intro hc
    exact h2 (by simpa [transpose_notes] using hc)
  · rw [length_transpose, h4]
  · rw [pcm_transpose_neg12, h3]

lemma voicedToResult_ok {notes : List Int} (h : notes ≠ []) (vs nm : String)
    (t : Tape) :
    SmoothOk (voicedToResult (apply_voicing notes vs nm (-12) t).1) := by
  obtain ⟨h1, h2, h3, h4⟩ := apply_voicing_ne notes h vs nm (-12) t
  obtain ⟨h5, h6⟩ := apply_voicing_midi_orig notes vs nm t
  exact ⟨h1, h2, h3, h4, h5, h6⟩

/-- Every result of `_find_next_smooth_chord` (at playback shift -12) is
either the error sentinel or a wellformed chord. -/
lemma smooth_result_spec (pool : Pool) (pcn : List String)
    (pf : Option (List Int)) (pn : Option String) (bias kr vs : String) (t : Tape) :
    (find_next_smooth_chord pool pcn pf pn bias kr vs (-12) t).1 = smoothErr ∨
    SmoothOk (find_next_smooth_chord pool pcn pf pn bias kr vs (-12) t).1 := by
  unfold find_next_smooth_chord
  dsimp only
  split
  · -- first chord: uniform random choice
    split
    · rename_i chosen t2 heq
      split
      · split
        · rename_i entry hfind
          split
          · rename_i hne
            exact Or.inr (voicedToResult_ok
              (by simpa [List.isEmpty_iff] using hne) vs chosen t2)
          · exact Or.inl rfl
        · exact Or.inl rfl
      · exact Or.inl rfl
    · exact Or.inl rfl
  · -- smoothness loop; the first split resolves the filtered-or-full
    -- candidate list
    rename_i prevNotes
    split
    · split
      · exact Or.inl rfl
      · split
        · rename_i c hsel
          have hmem := runSelect_fst_mem hsel
          obtain ⟨h1, h2, h3, h4⟩ := evalCands_spec pool _ bias kr vs (-12) _ _ c hmem
          exact Or.inr (candToResult_ok h1 h2 h3 h4)
        · split
          · rename_i c hsel
            have hmem := runSelect_snd_mem hsel
            obtain ⟨h1, h2, h3, h4⟩ := evalCands_spec pool _ bias kr vs (-12) _ _ c hmem
            exact Or.inr (candToResult_ok h1 h2 h3 h4)
          · split
            · rename_i fc hfb
              split
              · split
                · rename_i entry hfind
                  split
                  · rename_i hne
                    exact Or.inr (voicedToResult_ok
                      (by simpa [List.isEmpty_iff] using hne) vs fc _)
                  · exact Or.inl rfl
                · exact Or.inl rfl
              · exact Or.inl rfl
            · exact Or.inl rfl
    · split
      · rename_i c hsel
        have hmem := runSelect_fst_mem hsel
        obtain ⟨h1, h2, h3, h4⟩ := evalCands_spec pool _ bias kr vs (-12) _ _ c hmem
        exact Or.inr (candToResult_ok h1 h2 h3 h4)
      · split
        · rename_i c hsel
          have hmem := runSelect_snd_mem hsel
          obtain ⟨h1, h2, h3, h4⟩ := evalCands_spec pool _ bias kr vs (-12) _ _ c hmem
          exact Or.inr (candToResult_ok h1 h2 h3 h4)
        · split
          · rename_i fc hfb
            split
            · split
              · rename_i entry hfind
                split
                · rename_i hne
                  exact Or.inr (voicedToResult_ok
                    (by simpa [List.isEmpty_iff] using hne) vs fc _)
                · exact Or.inl rfl
              · exact Or.inl rfl
            · exact Or.inl rfl
          · exact Or.inl rfl


lemma pickInitial_pickOk (ps vs bias : String) (pool : Pool) (pcn : List String)
    (kt krn : String) (idx : Nat) (pf : Option (List Int)) (pb : Option String)
    (t : Tape) :
    PickOk (pickInitial ps vs bias pool pcn kt krn idx pf pb t).1 := by
  unfold pickInitial
  dsimp only
  split
  · rcases smooth_result_spec pool pcn pf pb bias krn vs
      (templateName ps pool kt idx t).2 with h | h
    · rw [h]
      exact ⟨rfl, rfl⟩
    · exact ⟨h.2.2.2.2.1, h.2.2.2.2.2⟩
  · split
    · split
      · rename_i entry hfind
        split
        · exact ⟨(apply_voicing_midi_orig entry.notes vs _ _).1,
            (apply_voicing_midi_orig entry.notes vs _ _).2⟩
        · exact ⟨rfl, rfl⟩
      · exact ⟨rfl, rfl⟩
    · exact ⟨rfl, rfl⟩

lemma voiceFallback_pickOk (vs : String) (pool : Pool) (fc : String) (t : Tape) :
    ∀ q, (voiceFallback vs pool fc t).1 = some q → PickOk q := by
  unfold voiceFallback
  dsimp only
  intro q hq
  split at hq
  · split at hq
    · rename_i entry hfind
      split at hq
      · cases Option.some.inj hq
        exact ⟨(apply_voicing_midi_orig entry.notes vs fc _).1,
          (apply_voicing_midi_orig entry.notes vs fc _).2⟩
      · exact absurd hq (by simp)
    · exact absurd hq (by simp)
  · exact absurd hq (by simp)

lemma pickFallback_pickOk (vs : String) (pool : Pool) (pcn : List String)
    (pb : Option String) (p : Picked) (t : Tape) (hp : PickOk p) :
    ∀ q, (pickFallback vs pool pcn pb p t).1 = some q → PickOk q := by
  unfold pickFallback
  dsimp only
  intro q hq
  split at hq
  · split at hq
    · exact voiceFallback_pickOk vs pool _ _ q hq
    · exact absurd hq (by simp)
  · cases Option.some.inj hq
    exact hp

lemma fallbackChoice_valid (pool : Pool) (pcn : List String) (pb : Option String)
    (t : Tape) (hv : ValidPool pool) (hpcn : pcn = pool.map Prod.fst) :
    ∃ fc t2, fallbackChoice pool pcn pb t = (some fc, t2) ∧
      fc ≠ "" ∧ poolHas pool fc = true := by
  have hpcnne : ¬pcn.isEmpty = true := by
    rw [List.isEmpty_iff, hpcn]
    simpa using hv.1
  have hchoice : ∀ t0 : Tape, ∃ fc t2, choiceL pcn t0 = (some fc, t2) ∧
      fc ≠ "" ∧ poolHas pool fc = true := by
    intro t0
    have hs := choiceL_isSome (by rwa [List.isEmpty_iff] at hpcnne) t0
    obtain ⟨fc, hfc⟩ := Option.isSome_iff_exists.mp hs
    have hmem : fc ∈ pcn := choiceL_mem hfc
    rw [hpcn] at hmem
    obtain ⟨e, he, hfst⟩ := List.mem_map.mp hmem
    refine ⟨fc, (choiceL pcn t0).2, ?_, ?_, poolHas_of_mem_names hmem⟩
    · rcases hcl : choiceL pcn t0 with ⟨o, t2⟩
      rw [hcl] at hfc
      simp at hfc
      rw [hfc]
    · rw [← hfst]
      exact hv.2.2 e he
  rcases pb with _ | pb0
  · simp only [fallbackChoice]
    rw [if_pos hpcnne]
    exact hchoice t
  · simp only [fallbackChoice]
    split
    · rename_i hpb
      exact ⟨pb0, t, rfl, hpb.1, hpb.2⟩
    · exact hchoice t

lemma voiceFallback_isSome (vs : String) (pool : Pool) (fc : String) (t : Tape)
    (hv : ValidPool pool) (hne : fc ≠ "") (hhas : poolHas pool fc = true) :
    ((voiceFallback vs pool fc t).1).isSome := by
  obtain ⟨entry, hfind, hmem⟩ := poolFind_some_of_has hhas
  have hnotes : entry.notes ≠ [] := hv.2.1 (fc, entry) hmem
  have hni : entry.notes.isEmpty = false := by
    rcases h2 : entry.notes.isEmpty
    · rfl
    · exact absurd (List.isEmpty_iff.mp h2) hnotes
  unfold voiceFallback
  rw [if_pos ⟨hne, hhas⟩]
  simp only [hfind, hni]
  rfl

lemma pickFallback_isSome (vs : String) (pool : Pool) (pcn : List String)
    (pb : Option String) (p : Picked) (t : Tape)
    (hv : ValidPool pool) (hpcn : pcn = pool.map Prod.fst) :
    ((pickFallback vs pool pcn pb p t).1).isSome := by
  unfold pickFallback
  split
  · obtain ⟨fc, t2, hfb, hne, hhas⟩ := fallbackChoice_valid pool pcn pb t hv hpcn
    rw [hfb]
    exact voiceFallback_isSome vs pool fc t2 hv hne hhas
  · rfl

lemma storePick_slotOk (bpc : ℚ) (q : Picked) (hq : PickOk q) :
    SlotOk bpc (storePick bpc q).1 := by
  unfold storePick
  split
  · split
    · exact ⟨rfl, hq.1, hq.2⟩
    · exact ⟨rfl, rfl, rfl⟩
  · exact ⟨rfl, rfl, rfl⟩

lemma genSlotStep_slotOk (ps vs bias : String) (pool : Pool) (pcn : List String)
    (kt krn : String) (bpc : ℚ) (idx : Nat) (pf : Option (List Int))
    (pb : Option String) (t : Tape) :
    ∀ slot pf2 pb2 t2,
      genSlotStep ps vs bias pool pcn kt krn bpc idx pf pb t =
        (some (slot, pf2, pb2), t2) →
      SlotOk bpc slot := by
  intro slot pf2 pb2 t2 h
  unfold genSlotStep at h
  dsimp only at h
  split at h
  · exact absurd h (by simp)
  · rename_i q hq
    have hpk := pickFallback_pickOk vs pool pcn pb _ _
      (pickInitial_pickOk ps vs bias pool pcn kt krn idx pf pb t) q hq
    have := storePick_slotOk bpc q hpk
    have hs : storePick bpc q = (slot, pf2, pb2) := by
      injection h with h1 h2
      injection h1
    rw [hs] at this
    exact this

lemma genSlotStep_isSome (ps vs bias : String) (pool : Pool) (pcn : List String)
    (kt krn : String) (bpc : ℚ) (idx : Nat) (pf : Option (List Int))
    (pb : Option String) (t : Tape)
    (hv : ValidPool pool) (hpcn : pcn = pool.map Prod.fst) :
    ((genSlotStep ps vs bias pool pcn kt krn bpc idx pf pb t).1).isSome := by
  unfold genSlotStep
  dsimp only
  have hs := pickFallback_isSome vs pool pcn pb
    (pickInitial ps vs bias pool pcn kt krn idx pf pb t).1
    (pickInitial ps vs bias pool pcn kt krn idx pf pb t).2 hv hpcn
  obtain ⟨q, hq⟩ := Option.isSome_iff_exists.mp hs
  rw [hq]
  rfl


lemma genSlots_slotOk (ps vs bias : String) (pool : Pool) (pcn : List String)
    (kt krn : String) (bpc : ℚ) :
    ∀ (fuel idx : Nat) (pf : Option (List Int)) (pb : Option String) (t : Tape),
      ∀ s ∈ (genSlots ps vs bias pool pcn kt krn bpc fuel idx pf pb t).1,
        SlotOk bpc s := by
  intro fuel
  induction fuel with
  | zero =>
    intro idx pf pb t s hs
    exact absurd hs (by simp [genSlots])
  | succ r ih =>
    intro idx pf pb t s hs
    unfold genSlots at hs
    rcases hstep : genSlotStep ps vs bias pool pcn kt krn bpc idx pf pb t with ⟨o, t2⟩
    rw [hstep] at hs
    match o, hs with
    | none, hs => exact absurd hs (by simp)
    | some (slot, pf2, pb2), hs =>
      rcases List.mem_cons.mp hs with rfl | hmem
      · exact genSlotStep_slotOk ps vs bias pool pcn kt krn bpc idx pf pb t s pf2 pb2 t2
          (by rw [hstep])
      · exact ih (idx + 1) pf2 pb2 t2 s hmem

lemma genSlots_length (ps vs bias : String) (pool : Pool) (pcn : List String)
    (kt krn : String) (bpc : ℚ) (hv : ValidPool pool)
    (hpcn : pcn = pool.map Prod.fst) :
    ∀ (fuel idx : Nat) (pf : Option (List Int)) (pb : Option String) (t : Tape),
      (genSlots ps vs bias pool pcn kt krn bpc fuel idx pf pb t).1.length = fuel := by
  intro fuel
  induction fuel with
  | zero => intro idx pf pb t; simp [genSlots]
  | succ r ih =>
    intro idx pf pb t
    unfold genSlots
    rcases hstep : genSlotStep ps vs bias pool pcn kt krn bpc idx pf pb t with ⟨o, t2⟩
    have hsome := genSlotStep_isSome ps vs bias pool pcn kt krn bpc idx pf pb t hv hpcn
    rw [hstep] at hsome
    match o, hsome with
    | some (slot, pf2, pb2), _ =>
      simp only [List.length_cons]
      rw [ih (idx + 1) pf2 pb2 t2]

lemma applyCadence_length (cadence vs : String) (pool : Pool) (kt : String)
    (im : Bool) (bpc : ℚ) (prog : List Slot) (t : Tape) :
    (applyCadence cadence vs pool kt im bpc prog t).1.length = prog.length := by
  rcases applyCadence_shape cadence vs pool kt im bpc prog t with h | ⟨-, s1, s2, h, -, -⟩
  · rw [h]
  · rw [h]
    simp

lemma applyCadence_slots (cadence vs : String) (pool : Pool) (kt : String)
    (im : Bool) (bpc : ℚ) (prog : List Slot) (t : Tape)
    (h : ∀ s ∈ prog, SlotOk bpc s) :
    ∀ s ∈ (applyCadence cadence vs pool kt im bpc prog t).1, SlotOk bpc s := by
  unfold applyCadence
  dsimp only
  split
  · split
    · split
      · split
        · split
          · intro s hs
            rcases List.mem_or_eq_of_mem_set hs with hs2 | rfl
            · rcases List.mem_or_eq_of_mem_set hs2 with hs3 | rfl
              · exact h s hs3
              · exact ⟨rfl, (apply_voicing_midi_orig _ vs _ _).1,
                  (apply_voicing_midi_orig _ vs _ _).2⟩
            · exact ⟨rfl, (apply_voicing_midi_orig _ vs _ _).1,
                (apply_voicing_midi_orig _ vs _ _).2⟩
          · intro s hs
            rcases List.mem_or_eq_of_mem_set hs with hs2 | rfl
            · exact h s hs2
            · exact ⟨rfl, (apply_voicing_midi_orig _ vs _ _).1,
                (apply_voicing_midi_orig _ vs _ _).2⟩
        · exact h
      · exact h
    · split
      · split
        · split
          · split
            · intro s hs
              rcases List.mem_or_eq_of_mem_set hs with hs2 | rfl
              · rcases List.mem_or_eq_of_mem_set hs2 with hs3 | rfl
                · exact h s hs3
                · exact ⟨rfl, (apply_voicing_midi_orig _ vs _ _).1,
                    (apply_voicing_midi_orig _ vs _ _).2⟩
              · exact ⟨rfl, (apply_voicing_midi_orig _ vs _ _).1,
                  (apply_voicing_midi_orig _ vs _ _).2⟩
            · intro s hs
              rcases List.mem_or_eq_of_mem_set hs with hs2 | rfl
              · exact h s hs2
              · exact ⟨rfl, (apply_voicing_midi_orig _ vs _ _).1,
                  (apply_voicing_midi_orig _ vs _ _).2⟩
          · exact h
        · exact h
      · exact h
  · exact h

lemma sum_dur_of_const {bpc : ℚ} :
    ∀ (l : List Slot), (∀ s ∈ l, s.dur = bpc) →
      (l.map (·.dur)).sum = l.length * bpc := by
  intro l
  induction l with
  | nil => intro _; simp
  | cons a l ih =>
    intro h
    have ha := h a (List.mem_cons_self a l)
    have hl := ih (fun s hs => h s (List.mem_cons_of_mem a hs))
    simp only [List.map_cons, List.sum_cons, List.length_cons, ha, hl]
    push_cast
    ring


/-- C2 (amended): for the non-blues generator with a valid pool (non-empty,
non-empty names and notes) and the usual name list, the progression has
exactly `numBars * chordsPerBar` slots, each of exactly `4 / chordsPerBar`
beats, so the durations sum to exactly `numBars * 4`; the blues path instead
always produces 12 slots of 4.0 beats (it ignores the chords-per-bar rate),
which still sum to the forced `numBars * 4 = 48`. -/
theorem c2_durations_amended :
    (∀ (num_bars : Nat) (prog_style chord_rate voicing cadence bias kt krn : String)
        (pool : Pool) (pcn : List String) (im : Bool) (t : Tape),
      pcn = pool.map Prod.fst → ValidPool pool →
      (generate_progression num_bars prog_style chord_rate voicing cadence bias
          pool pcn kt krn im t).1.length =
        num_bars * (if chord_rate = "1 / Bar" then 1 else 2) ∧
      (∀ s ∈ (generate_progression num_bars prog_style chord_rate voicing cadence bias
          pool pcn kt krn im t).1,
        s.dur = 4 / (((if chord_rate = "1 / Bar" then 1 else 2) : Nat) : ℚ)) ∧
      ((generate_progression num_bars prog_style chord_rate voicing cadence bias
          pool pcn kt krn im t).1.map (·.dur)).sum = (num_bars : ℚ) * 4) ∧
    (∀ (k : Fin 12) (minor : Bool) (slots : List Slot),
      (execute_blues 12 (NOTE_NAMES.getD k "")
          (if minor then "minor" else "major")).2 = some slots →
      slots.length = 12 ∧ (∀ s ∈ slots, s.dur = 4) ∧
      (slots.map (·.dur)).sum = (12 : ℚ) * 4) := by
  constructor
  · intro num_bars prog_style chord_rate voicing cadence bias kt krn pool pcn im t
      hpcn hv
    have hlen :
        (generate_progression num_bars prog_style chord_rate voicing cadence bias
          pool pcn kt krn im t).1.length =
        num_bars * (if chord_rate = "1 / Bar" then 1 else 2) := by
      unfold generate_progression
      dsimp only
      rw [applyCadence_length, genSlots_length _ _ _ _ _ _ _ _ hv hpcn]
    have hdur :
        ∀ s ∈ (generate_progression num_bars prog_style chord_rate voicing cadence bias
          pool pcn kt krn im t).1,
        s.dur = 4 / (((if chord_rate = "1 / Bar" then 1 else 2) : Nat) : ℚ) := by
      intro s hs
      unfold generate_progression at hs
      dsimp only at hs
      have := applyCadence_slots _ _ _ _ _ _ _ _
        (genSlots_slotOk _ _ _ _ _ _ _ _ _ _ _ _ _) s hs
      exact this.1
    refine ⟨hlen, hdur, ?_⟩
    rw [sum_dur_of_const _ hdur, hlen]
    by_cases hr : chord_rate = "1 / Bar"
    · rw [if_pos hr]
      push_cast
      ring
    · rw [if_neg hr]
      push_cast
      ring
  · intro k minor slots h
    have key : ∀ (k : Fin 12) (minor : Bool),
        ((execute_blues 12 (NOTE_NAMES.getD k "")
            (if minor then "minor" else "major")).2.map List.length = some 12) ∧
        ((execute_blues 12 (NOTE_NAMES.getD k "")
            (if minor then "minor" else "major")).2.map
          (fun l => decide (∀ s ∈ l, s.dur = (4 : ℚ))) = some true) := by
      decide
    obtain ⟨h1, h2⟩ := key k minor
    rw [h] at h1 h2
    simp only [Option.map_some'] at h1 h2
    have hlen : slots.length = 12 := Option.some.inj h1
    have hdur : ∀ s ∈ slots, s.dur = (4 : ℚ) :=
      of_decide_eq_true (Option.some.inj h2)
    refine ⟨hlen, hdur, ?_⟩
    rw [sum_dur_of_const _ hdur, hlen]
    norm_num


/-- C2 witness: the amended theorem applied to the Chorgi C-major pool, one
bar of smooth random at one chord per bar. -/
theorem c2_durations_amended_witness :
    (generate_progression 1 "Smooth Random" "1 / Bar" "Root Position" "Any"
        "Standard" (generate_chorgi_major_chord_pool "C" 60 "Standard (Triads/7ths)")
        ((generate_chorgi_major_chord_pool "C" 60 "Standard (Triads/7ths)").map
          Prod.fst) "major" "C" false []).1.length =
      1 * (if "1 / Bar" = "1 / Bar" then 1 else 2) ∧
    (∀ s ∈ (generate_progression 1 "Smooth Random" "1 / Bar" "Root Position" "Any"
        "Standard" (generate_chorgi_major_chord_pool "C" 60 "Standard (Triads/7ths)")
        ((generate_chorgi_major_chord_pool "C" 60 "Standard (Triads/7ths)").map
          Prod.fst) "major" "C" false []).1,
      s.dur = 4 / (((if "1 / Bar" = "1 / Bar" then 1 else 2) : Nat) : ℚ)) ∧
    ((generate_progression 1 "Smooth Random" "1 / Bar" "Root Position" "Any"
        "Standard" (generate_chorgi_major_chord_pool "C" 60 "Standard (Triads/7ths)")
        ((generate_chorgi_major_chord_pool "C" 60 "Standard (Triads/7ths)").map
          Prod.fst) "major" "C" false []).1.map (·.dur)).sum = ((1 : Nat) : ℚ) * 4 :=
  c2_durations_amended.1 1 "Smooth Random" "1 / Bar" "Root Position" "Any" "Standard"
    "major" "C" (generate_chorgi_major_chord_pool "C" 60 "Standard (Triads/7ths)")
    ((generate_chorgi_major_chord_pool "C" 60 "Standard (Triads/7ths)").map Prod.fst)
    false [] rfl ⟨by decide, by decide, by decide⟩

lemma ite_none_some {α : Type} {c : Prop} [Decidable c] {L slots : α}
    (h : (if c then none else some L) = some slots) : slots = L := by
  split at h
  · exact absurd h (by simp)
  · exact (Option.some.inj h).symm

/-! Claim C10: pitch-class preservation from root position to midi notes. -/

/-- C10: for every slot of every generated progression (non-blues and blues
paths alike), the midi-note list has the same length and the same mod-12
pitch-class multiset as the original root-position list: inversions move
notes by whole octaves, drop-2 lowers one note by an octave, and the playback
shift is a uniform -12, so no pitch class is added, removed or altered. -/
theorem c10_pitch_class_preservation :
    (∀ (num_bars : Nat) (prog_style chord_rate voicing cadence bias kt krn : String)
        (pool : Pool) (pcn : List String) (im : Bool) (t : Tape),
      ∀ s ∈ (generate_progression num_bars prog_style chord_rate voicing cadence bias
          pool pcn kt krn im t).1,
        s.midi.length = s.orig.length ∧ pcm s.midi = pcm s.orig) ∧
    (∀ (pool : Pool) (kt krn : String) (slots : List Slot),
      generate_12_bar_blues_progression pool kt krn = some slots →
      ∀ s ∈ slots, s.midi.length = s.orig.length ∧ pcm s.midi = pcm s.orig) := by
  constructor
  · intro num_bars prog_style chord_rate voicing cadence bias kt krn pool pcn im t s hs
    unfold generate_progression at hs
    dsimp only at hs
    have := applyCadence_slots _ _ _ _ _ _ _ _
      (genSlots_slotOk _ _ _ _ _ _ _ _ _ _ _ _ _) s hs
    exact ⟨this.2.1, this.2.2⟩
  · intro pool kt krn slots h s hs
    unfold generate_12_bar_blues_progression at h
    dsimp only at h
    have hslots : slots = _ := ite_none_some h
    rw [hslots] at hs
    obtain ⟨name, hname, hf⟩ := List.mem_map.mp hs
    rcases hfind : poolFind pool name with _ | e
    · rw [hfind] at hf
      rw [← hf]
      exact ⟨rfl, rfl⟩
    · rw [hfind] at hf
      dsimp only at hf
      by_cases hni : e.notes.isEmpty
      · rw [if_pos hni] at hf
        rw [← hf]
        exact ⟨rfl, rfl⟩
      · rw [if_neg hni] at hf
        rw [← hf]
        exact ⟨length_transpose _ _, pcm_transpose_neg12 _⟩


/-- C10 witness: the invariant evaluated on the slot actually generated for a
one-bar smooth-random run over the Chorgi C-major pool. -/
theorem c10_pitch_class_preservation_witness :
    (⟨"Cmaj", [60, 64, 67], [48, 52, 55], some 60, 4⟩ : Slot).midi.length =
      (⟨"Cmaj", [60, 64, 67], [48, 52, 55], some 60, 4⟩ : Slot).orig.length ∧
    pcm (⟨"Cmaj", [60, 64, 67], [48, 52, 55], some 60, 4⟩ : Slot).midi =
      pcm (⟨"Cmaj", [60, 64, 67], [48, 52, 55], some 60, 4⟩ : Slot).orig :=
  c10_pitch_class_preservation.1 1 "Smooth Random" "1 / Bar" "Root Position" "Any"
    "Standard" "major" "C"
    (generate_chorgi_major_chord_pool "C" 60 "Standard (Triads/7ths)")
    ((generate_chorgi_major_chord_pool "C" 60 "Standard (Triads/7ths)").map Prod.fst)
    false []
    ⟨"Cmaj", [60, 64, 67], [48, 52, 55], some 60, 4⟩ (by decide)

/-! Claim C4: minimality of the smooth-random selection. -/

/-- The constrained-winner update of the candidate loop, on its own. -/
def selFst (ph : Int) (b : Option Cand) (c : Cand) : Option Cand :=
  if c.high ≤ ph + 3 ∧ beatsBest c b then some c else b

/-- The unconstrained-winner update of the candidate loop, on its own. -/
def selSnd (b : Option Cand) (c : Cand) : Option Cand :=
  if beatsBest c b then some c else b

lemma runSelect_proj (ph : Int) (L : List Cand) :
    runSelect ph L = (L.foldl (selFst ph) none, L.foldl selSnd none) := by
  unfold runSelect
  suffices h : ∀ (L2 : List Cand) (st : Option Cand × Option Cand),
      L2.foldl (selStep ph) st = (L2.foldl (selFst ph) st.1, L2.foldl selSnd st.2) by
    exact h L (none, none)
  intro L2
  induction L2 with
  | nil => intro st; rfl
  | cons a L2 ih =>
    intro st
    simp only [List.foldl_cons]
    rw [ih]
    rfl

/-- Invariant of the constrained running winner over the processed prefix:
absent exactly when no processed candidate meets the voice-leading
constraint; otherwise a constrained candidate of minimal bias-adjusted
distance among the constrained processed ones. -/
def ConOk (ph : Int) (seen : List Cand) (b : Option Cand) : Prop :=
  (b = none → ∀ d ∈ seen, ¬(d.high ≤ ph + 3)) ∧
  (∀ c, b = some c → c ∈ seen ∧ c.high ≤ ph + 3 ∧
    ∀ d ∈ seen, d.high ≤ ph + 3 → c.dist ≤ d.dist)

/-- Invariant of the unconstrained running winner: present as soon as any
candidate was processed, and of minimal bias-adjusted distance among all
processed candidates. -/
def UnconOk (seen : List Cand) (b : Option Cand) : Prop :=
  (b = none → seen = []) ∧
  (∀ c, b = some c → c ∈ seen ∧ ∀ d ∈ seen, c.dist ≤ d.dist)

lemma selFst_step (ph : Int) (seen : List Cand) (b : Option Cand) (a : Cand)
    (h : ConOk ph seen b) : ConOk ph (seen ++ [a]) (selFst ph b a) := by
  unfold selFst
  split
  · rename_i hcond
    constructor
    · intro hc; exact absurd hc (by simp)
    · intro c hc
      cases Option.some.inj hc
      refine ⟨by simp, hcond.1, ?_⟩
      intro d hd hcd
      rcases List.mem_append.mp hd with hd2 | hd2
      · rcases hb : b with _ | b0
        · exact absurd hcd (h.1 hb d hd2)
        · have hlt : a.dist < b0.dist := by
            have := hcond.2
            rw [hb] at this
            simpa [beatsBest] using this
          have hmin := (h.2 b0 hb).2.2 d hd2 hcd
          exact le_of_lt (lt_of_lt_of_le hlt hmin)
      · have : d = a := by simpa using hd2
        rw [this]
  · rename_i hcond
    constructor
    · intro hb
      intro d hd
      rcases List.mem_append.mp hd with hd2 | hd2
      · exact h.1 hb d hd2
      · have hda : d = a := by simpa using hd2
        rw [hda]
        intro hca
        rw [hb] at hcond
        exact hcond ⟨hca, by simp [beatsBest]⟩
    · intro c hc
      obtain ⟨hmem, hcc, hmin⟩ := h.2 c hc
      refine ⟨List.mem_append_left _ hmem, hcc, ?_⟩
      intro d hd hcd
      rcases List.mem_append.mp hd with hd2 | hd2
      · exact hmin d hd2 hcd
      · have hda : d = a := by simpa using hd2
        subst hda
        rw [hc] at hcond
        have : ¬(d.dist < c.dist) := by
          intro hlt
          exact hcond ⟨hcd, by simpa [beatsBest] using hlt⟩
        exact le_of_not_lt this
  
lemma selSnd_step (seen : List Cand) (b : Option Cand) (a : Cand)
    (h : UnconOk seen b) : UnconOk (seen ++ [a]) (selSnd b a) := by
  unfold selSnd
  split
  · rename_i hcond
    constructor
    · intro hc; exact absurd hc (by simp)
    · intro c hc
      cases Option.some.inj hc
      refine ⟨by simp, ?_⟩
      intro d hd
      rcases List.mem_append.mp hd with hd2 | hd2
      · rcases hb : b with _ | b0
        · rw [h.1 hb] at hd2
          exact absurd hd2 (by simp)
        · have hlt : a.dist < b0.dist := by
            rw [hb] at hcond
            simpa [beatsBest] using hcond
          exact le_of_lt (lt_of_lt_of_le hlt ((h.2 b0 hb).2 d hd2))
      · have : d = a := by simpa using hd2
        rw [this]
  · rename_i hcond
    constructor
    · intro hb
      rw [hb] at hcond
      exact absurd (rfl : beatsBest a none = true) hcond
    · intro c hc
      obtain ⟨hmem, hmin⟩ := h.2 c hc
      refine ⟨List.mem_append_left _ hmem, ?_⟩
      intro d hd
      rcases List.mem_append.mp hd with hd2 | hd2
      · exact hmin d hd2
      · have hda : d = a := by simpa using hd2
        subst hda
        rw [hc] at hcond
        have : ¬(d.dist < c.dist) := by
          intro hlt
          exact hcond (by simpa [beatsBest] using hlt)
        exact le_of_not_lt this

lemma foldl_selFst_inv (ph : Int) :
    ∀ (L seen : List Cand) (b : Option Cand),
      ConOk ph seen b → ConOk ph (seen ++ L) (L.foldl (selFst ph) b) := by
  intro L
  induction L with
  | nil => intro seen b h; simpa using h
  | cons a L ih =>
    intro seen b h
    have step := selFst_step ph seen b a h
    have := ih (seen ++ [a]) (selFst ph b a) step
    rw [List.append_assoc, List.singleton_append] at this
    rw [List.foldl_cons]
    exact this

lemma foldl_selSnd_inv :
    ∀ (L seen : List Cand) (b : Option Cand),
      UnconOk seen b → UnconOk (seen ++ L) (L.foldl selSnd b) := by
  intro L
  induction L with
  | nil => intro seen b h; simpa using h
  | cons a L ih =>
    intro seen b h
    have step := selSnd_step seen b a h
    have := ih (seen ++ [a]) (selSnd b a) step
    rw [List.append_assoc, List.singleton_append] at this
    rw [List.foldl_cons]
    exact this

lemma runSelect_fst_spec (ph : Int) (L : List Cand) :
    ConOk ph L ((runSelect ph L).1) := by
  rw [runSelect_proj]
  have := foldl_selFst_inv ph L [] none
    ⟨fun _ d hd => absurd hd (by simp), fun c hc => absurd hc (by simp)⟩
  simpa using this

lemma runSelect_snd_spec (ph : Int) (L : List Cand) :
    UnconOk L ((runSelect ph L).2) := by
  rw [runSelect_proj]
  have := foldl_selSnd_inv L [] none
    ⟨fun _ => rfl, fun c hc => absurd hc (by simp)⟩
  simpa using this

/-- The candidate-name list of the smooth selection: all pool names minus
the previous chord's name, unless that would leave nothing. -/
def smoothPoss (pcn : List String) (prevName : Option String) : List String :=
  if (pcn.filter (fun n => ¬(some n = prevName))).isEmpty then pcn
  else pcn.filter (fun n => ¬(some n = prevName))

/-- The evaluated candidates of one smooth-selection run: the up-to-5 random
sample of `smoothPoss`, each voiced and scored with the bias-adjusted
distance. -/
def smoothEc (pool : Pool) (pcn : List String) (prevNotes : List Int)
    (prevName : Option String) (bias krn vs : String) (t : Tape) :
    List Cand × Tape :=
  evalCands pool (get_average_pitch prevNotes) bias krn vs (-12)
    (sampleL (smoothPoss pcn prevName) (min 5 (smoothPoss pcn prevName).length) t).1
    (sampleL (smoothPoss pcn prevName) (min 5 (smoothPoss pcn prevName).length) t).2

/-- C4: in smooth-random selection with a previous chord, the returned chord
is one of the evaluated sampled candidates (the up-to-5 sample excludes the
previous chord's name when alternatives exist), and among those candidates it
minimizes the bias-adjusted distance (`Cand.dist`: the distance between
average voiced pitches, multiplied by 0.7 on a Darker/Lighter quality match),
restricted to candidates whose highest voiced note is at most the previous
highest note plus 3 semitones whenever at least one candidate satisfies that
constraint, and over all candidates otherwise. -/
theorem c4_smooth_selection_minimality (pool : Pool) (pcn : List String)
    (prevNotes : List Int) (prevName : Option String) (bias krn vs : String)
    (t : Tape) (hpcn : pcn ≠ [])
    (hec : (smoothEc pool pcn prevNotes prevName bias krn vs t).1 ≠ []) :
    ∃ c ∈ (smoothEc pool pcn prevNotes prevName bias krn vs t).1,
      (find_next_smooth_chord pool pcn (some prevNotes) prevName bias krn vs
        (-12) t).1 = candToResult c (-12) ∧
      ((∃ d ∈ (smoothEc pool pcn prevNotes prevName bias krn vs t).1,
          d.high ≤ listMax prevNotes + 3) →
        c.high ≤ listMax prevNotes + 3 ∧
        ∀ d ∈ (smoothEc pool pcn prevNotes prevName bias krn vs t).1,
          d.high ≤ listMax prevNotes + 3 → c.dist ≤ d.dist) ∧
      ((¬∃ d ∈ (smoothEc pool pcn prevNotes prevName bias krn vs t).1,
          d.high ≤ listMax prevNotes + 3) →
        ∀ d ∈ (smoothEc pool pcn prevNotes prevName bias krn vs t).1,
          c.dist ≤ d.dist) := by
  have hpossne : ¬(smoothPoss pcn prevName).isEmpty = true := by
    unfold smoothPoss
    split
    · rwa [List.isEmpty_iff]
    · rename_i hf
      rwa [List.isEmpty_iff] at hf ⊢
  have hcon := runSelect_fst_spec (listMax prevNotes)
    (smoothEc pool pcn prevNotes prevName bias krn vs t).1
  have huncon := runSelect_snd_spec (listMax prevNotes)
    (smoothEc pool pcn prevNotes prevName bias krn vs t).1
  rcases h1 : (runSelect (listMax prevNotes)
      (smoothEc pool pcn prevNotes prevName bias krn vs t).1).1 with _ | c
  · rcases h2 : (runSelect (listMax prevNotes)
        (smoothEc pool pcn prevNotes prevName bias krn vs t).1).2 with _ | c
    · exact absurd (huncon.1 h2) hec
    · obtain ⟨hmem, hmin⟩ := huncon.2 c h2
      refine ⟨c, hmem, ?_, ?_, fun _ => hmin⟩
      · unfold find_next_smooth_chord
        dsimp only
        unfold smoothEc smoothPoss at h1 h2
        unfold smoothPoss at hpossne
        rw [if_neg hpossne, h1, h2]
      · intro hexist
        obtain ⟨d, hd, hcd⟩ := hexist
        exact absurd hcd (hcon.1 h1 d hd)
  · obtain ⟨hmem, hcc, hmin⟩ := hcon.2 c h1
    refine ⟨c, hmem, ?_, fun _ => ⟨hcc, hmin⟩, ?_⟩
    · unfold find_next_smooth_chord
      dsimp only
      unfold smoothEc smoothPoss at h1
      unfold smoothPoss at hpossne
      rw [if_neg hpossne, h1]
    · intro hnex
      exact absurd ⟨c, hmem, hcc⟩ hnex

/-- C4 witness: the minimality theorem applied to a concrete smooth-selection
run over the Chorgi C-major pool. -/
theorem c4_smooth_selection_minimality_witness :
    ∃ c ∈ (smoothEc (generate_chorgi_major_chord_pool "C" 60 "Standard (Triads/7ths)")
      ((generate_chorgi_major_chord_pool "C" 60 "Standard (Triads/7ths)").map Prod.fst)
      [60, 64, 67] (some "Cmaj") "Standard" "C" "Root Position" [0, 1, 2, 3, 4]).1,
      (find_next_smooth_chord
        (generate_chorgi_major_chord_pool "C" 60 "Standard (Triads/7ths)")
        ((generate_chorgi_major_chord_pool "C" 60 "Standard (Triads/7ths)").map
          Prod.fst)
        (some [60, 64, 67]) (some "Cmaj") "Standard" "C" "Root Position"
        (-12) [0, 1, 2, 3, 4]).1 = candToResult c (-12) ∧
      ((∃ d ∈ (smoothEc
          (generate_chorgi_major_chord_pool "C" 60 "Standard (Triads/7ths)")
          ((generate_chorgi_major_chord_pool "C" 60 "Standard (Triads/7ths)").map
            Prod.fst)
          [60, 64, 67] (some "Cmaj") "Standard" "C" "Root Position"
          [0, 1, 2, 3, 4]).1,
          d.high ≤ listMax [60, 64, 67] + 3) →
        c.high ≤ listMax [60, 64, 67] + 3 ∧
        ∀ d ∈ (smoothEc
          (generate_chorgi_major_chord_pool "C" 60 "Standard (Triads/7ths)")
          ((generate_chorgi_major_chord_pool "C" 60 "Standard (Triads/7ths)").map
            Prod.fst)
          [60, 64, 67] (some "Cmaj") "Standard" "C" "Root Position"
          [0, 1, 2, 3, 4]).1,
          d.high ≤ listMax [60, 64, 67] + 3 → c.dist ≤ d.dist) ∧
      ((¬∃ d ∈ (smoothEc
          (generate_chorgi_major_chord_pool "C" 60 "Standard (Triads/7ths)")
          ((generate_chorgi_major_chord_pool "C" 60 "Standard (Triads/7ths)").map
            Prod.fst)
          [60, 64, 67] (some "Cmaj") "Standard" "C" "Root Position"
          [0, 1, 2, 3, 4]).1,
          d.high ≤ listMax [60, 64, 67] + 3) →
        ∀ d ∈ (smoothEc
          (generate_chorgi_major_chord_pool "C" 60 "Standard (Triads/7ths)")
          ((generate_chorgi_major_chord_pool "C" 60 "Standard (Triads/7ths)").map
            Prod.fst)
          [60, 64, 67] (some "Cmaj") "Standard" "C" "Root Position"
          [0, 1, 2, 3, 4]).1,
          c.dist ≤ d.dist) :=
  c4_smooth_selection_minimality
    (generate_chorgi_major_chord_pool "C" 60 "Standard (Triads/7ths)")
    ((generate_chorgi_major_chord_pool "C" 60 "Standard (Triads/7ths)").map Prod.fst)
    [60, 64, 67] (some "Cmaj") "Standard" "C" "Root Position" [0, 1, 2, 3, 4]
    (by decide) (by decide)

/-! Claim C3 (amended): the chord-focus melody generator snaps to scale. -/

/-- The candidate-pool prefix of `choose_pitch` (everything before the
range-fit and snap-to-scale tail). -/
def pitchPool (diat ext scale_notes : List Int) (shift : Int) (ctw sw : ℚ)
    (last : Option Int) (t : Tape) : List Int × Tape :=
  let r1 := randUnit t
  let p1 : List Int := if r1.1 < ctw ∧ ¬diat.isEmpty then diat ++ diat ++ diat else []
  let s2 : List Int × Tape :=
    match last with
    | some ln =>
      if ¬ext.isEmpty then
        let r2 := randUnit r1.2
        (if r2.1 < sw then get_stepwise_notes ln ext 2 else [], r2.2)
      else ([], r1.2)
    | none => ([], r1.2)
  let possible0 := p1 ++ s2.1
  if possible0.isEmpty then
    if ¬diat.isEmpty then (diat, s2.2)
    else if ¬scale_notes.isEmpty then
      let r3 := choiceL scale_notes s2.2
      ((match r3.1 with | some n => [n + shift] | none => []), r3.2)
    else ([60 + shift], s2.2)
  else (possible0, s2.2)

/-- The range-fit and snap-to-scale tail of `choose_pitch`. -/
def pitchTail (pcs : List Int) (minP maxP : Int) (l : List Int) (tp : Tape) :
    Option Int × Tape :=
  if l.isEmpty then (none, tp)
  else
    let r4 := choiceL l tp
    match r4.1 with
    | none => (none, r4.2)
    | some p0 =>
      let pA := lowerBelow (raiseAbove p0 minP) maxP
      if pA % 12 ∈ pcs then (some pA, r4.2)
      else
        match snapPc (pA % 12) pcs with
        | none => (none, r4.2)
        | some cl =>
          let pB := (Int.fdiv pA 12) * 12 + cl
          let pC := lowerBelow (raiseAbove pB minP) maxP
          (if pC % 12 ∈ pcs then some pC else none, r4.2)

lemma choose_pitch_eq (diat ext sc pcs : List Int) (sh : Int) (ctw sw : ℚ)
    (mnP mxP : Int) (last : Option Int) (t : Tape) :
    choose_pitch diat ext sc pcs sh ctw sw mnP mxP last t =
      pitchTail pcs mnP mxP (pitchPool diat ext sc sh ctw sw last t).1
        (pitchPool diat ext sc sh ctw sw last t).2 := rfl

lemma pitchTail_pc (pcs : List Int) (mnP mxP : Int) (l : List Int) (tp : Tape)
    (p : Int) (h : (pitchTail pcs mnP mxP l tp).1 = some p) : p % 12 ∈ pcs := by
  unfold pitchTail at h
  dsimp only at h
  split at h
  · exact Option.noConfusion h
  · split at h
    · exact Option.noConfusion h
    · split at h
      · rename_i hmem
        rw [← Option.some.inj h]
        exact hmem
      · split at h
        · exact Option.noConfusion h
        · split at h
          · rename_i hmem2
            rw [← Option.some.inj h]
            exact hmem2
          · exact Option.noConfusion h

/-- Any pitch produced by the pitch-selection block has its class in the
scale's pitch-class set (it was either checked directly, or snapped and then
re-checked, or dropped). -/
lemma choose_pitch_pc (diat ext sc pcs : List Int) (sh : Int) (ctw sw : ℚ)
    (mnP mxP : Int) (last : Option Int) (t : Tape) (p : Int)
    (h : (choose_pitch diat ext sc pcs sh ctw sw mnP mxP last t).1 = some p) :
    p % 12 ∈ pcs := by
  rw [choose_pitch_eq] at h
  exact pitchTail_pc pcs mnP mxP _ _ p h

lemma melPlacement_pc (cfg : MelCfg) (diat : List Int) (d cs bq : ℚ) :
    ∀ (items : List (ℚ × ℚ)) (last : Option Int) (t : Tape),
      ∀ e ∈ (melPlacement cfg diat d cs bq items last t).1, e.1 % 12 ∈ cfg.pcs := by
  intro items
  induction items with
  | nil =>
    intro last t e he
    exact absurd he (by simp [melPlacement])
  | cons it rest ih =>
    intro last t e he
    rcases it with ⟨off, frac⟩
    unfold melPlacement at he
    dsimp only at he
    generalize (if cfg.artic = "Staccato" then cfg.stac else frac : ℚ) = d0 at he
    split at he
    · exact ih last t e he
    · split at he
      · exact ih last t e he
      · split at he
        · rename_i p hcp
          rcases List.mem_cons.mp he with rfl | hmem
          · exact choose_pitch_pc diat cfg.ext cfg.scale cfg.pcs cfg.shift cfg.ctw
              cfg.sw cfg.minP cfg.maxP last t p hcp
          · exact ih (some p) _ e hmem
        · exact ih last _ e he

lemma melBeats_pc (cfg : MelCfg) (diat : List Int) (d cs : ℚ)
    (placements : List (List (ℚ × ℚ))) :
    ∀ (fuel beat : Nat) (cur : ℚ) (last : Option Int) (t : Tape),
      ∀ e ∈ (melBeats cfg diat d cs placements fuel beat cur last t).1,
        e.1 % 12 ∈ cfg.pcs := by
  intro fuel
  induction fuel with
  | zero =>
    intro beat cur last t e he
    exact absurd he (by simp [melBeats])
  | succ r ih =>
    intro beat cur last t e he
    unfold melBeats at he
    split at he
    · exact absurd he (by simp)
    · rcases List.mem_append.mp he with hm | hm
      · exact melPlacement_pc cfg diat d cs _ _ _ _ e hm
      · exact ih (beat + 1) _ _ _ e hm

lemma melSlots_pc (cfg : MelCfg) (placements : List (List (ℚ × ℚ))) :
    ∀ (slots : List Slot) (time : ℚ) (last : Option Int) (t : Tape),
      ∀ e ∈ (melSlots cfg placements slots time last t).1, e.1 % 12 ∈ cfg.pcs := by
  intro slots
  induction slots with
  | nil =>
    intro time last t e he
    exact absurd he (by simp [melSlots])
  | cons s rest ih =>
    intro time last t e he
    unfold melSlots at he
    split at he
    · exact ih _ _ _ e he
    · rcases List.mem_append.mp he with hm | hm
      · exact melBeats_pc cfg _ _ _ placements _ _ _ _ _ e hm
      · exact ih _ _ _ e hm

/-- C3 (amended): every note event emitted by the chord-focus melody
generator has its pitch class in the active scale's pitch-class set (a pitch
whose class is off-scale is snapped to the nearest diatonic class or
dropped); the bass generators, by contrast, perform no such check and the
RnB style can emit an off-scale fifth (see the counterexample). -/
theorem c3_melody_snap_amended (prog : List Slot) (scale : List Int)
    (sty speed oct inst : String) (t : Tape) :
    ∀ e ∈ (generate_melody_chord_focus prog scale sty speed oct inst t).1,
      e.1 % 12 ∈ scale.map (· % 12) := by
  intro e he
  unfold generate_melody_chord_focus at he
  dsimp only at he
  split at he
  · exact absurd he (by simp)
  · have hmem := melSlots_pc _ _ prog 0 none t e he
    exact List.mem_dedup.mp hmem

theorem c3_melody_snap_amended_witness :
    (72 : Int) % 12 ∈ ([60, 62, 64, 65, 67, 69, 71] : List Int).map (· % 12) :=
  c3_melody_snap_amended
    [⟨"Cmaj", [60, 64, 67], [48, 52, 55], some 60, 4⟩]
    [60, 62, 64, 65, 67, 69, 71] "Legato" "Medium" "Mid" "Keys"
    [0, 0, 0, 0, 0, 0, 0, 0, 0, 0, 0, 0, 0, 0, 0, 0, 0, 0, 0, 0]
    (72, 0, 1/2) (by decide)

end Chorgi
